import Mathlib

/-!
Verification of the Static Runtime core (torch/csrc/jit/runtime/static/impl.cpp)
against its natural-language specification.

The development shallowly embeds the analysis layer (GetAlwaysAliveValues,
GetLivenessMap, GetMemoryPlanningCandidates, GenerateSameStorageValues), the
MemoryPlanner (allocate / deallocate / compute_aligned_tensor_size), the
StaticModule option checks, the StaticRuntime invocation skeleton, and
ProcessedNode's overlap check.  Graph values are natural numbers; the external
alias database and kernel-library predicates are parameters.
-/

namespace StaticRuntimeSpec

/-- A graph `Value*` is modelled by a natural-number identity. -/
abbrev Value := Nat

/-- A graph `Node`: operator kind collapsed to the one distinction the planner
makes (`prim::Constant` or not), plus ordered input and output value lists. -/
structure GNode where
  isConstant : Bool
  inputs : List Value
  outputs : List Value
deriving DecidableEq, Repr

/-- A block-free `torch::jit::Graph`: inputs, outputs, and top-level nodes. -/
structure Graph where
  inputs : List Value
  outputs : List Value
  nodes : List GNode
deriving DecidableEq, Repr

/-- The external alias database (torch/csrc/jit/ir/alias_analysis.h, outside
this translation unit), reduced to the two predicates impl.cpp consumes:
`mayAlias` (AliasDb::mayAlias on two values) and `mayContainAlias` on two
values.  The set overload `AliasDb::mayContainAlias(vs1, vs2)` is modelled
existentially over element pairs (`mayContainAliasSet` below). -/
structure AliasDb where
  mayAlias : Value → Value → Bool
  mayContainAlias : Value → Value → Bool

/-- `mayContainAlias(db, a, b)` on two value sets, lifted elementwise. -/
def mayContainAliasSet (db : AliasDb) (as bs : List Value) : Bool :=
  as.any fun a => bs.any fun b => db.mayContainAlias a b

/-! ### GetAlwaysAliveValues (impl.cpp lines 124-157)

Sets are modelled as lists; `unordered_set::insert` is an append (membership
is all later phases consult, so duplicates are harmless). -/

/-- The seeding phase of `GetAlwaysAliveValues`: graph inputs, graph outputs,
and every `prim::Constant` output. -/
def alwaysAliveSeed (g : Graph) : List Value :=
  g.inputs ++ g.outputs ++
    (g.nodes.filter (·.isConstant)).flatMap (·.outputs)

/-- The expansion phase: walk non-constant nodes; insert any output that may
contain an alias of the (growing) always-alive set. -/
def alwaysAliveExpand (db : AliasDb) (nodes : List GNode) (acc : List Value) :
    List Value :=
  nodes.foldl
    (fun acc n =>
      if n.isConstant then acc
      else
        n.outputs.foldl
          (fun acc2 v =>
            if mayContainAliasSet db [v] acc2 then acc2 ++ [v] else acc2)
          acc)
    acc

/-- `GetAlwaysAliveValues(graph, db)`: seed with inputs/outputs/constants and
expand with aliasing node outputs. -/
def GetAlwaysAliveValues (g : Graph) (db : AliasDb) : List Value :=
  alwaysAliveExpand db g.nodes (alwaysAliveSeed g)

/-! ### StaticModule option checks (impl.cpp lines 539-556) -/

/-- `StaticModuleOptions` (declared in impl.h; fields as used by impl.cpp). -/
structure SMOptions where
  cleanup_activations : Bool
  enable_out_variant : Bool
  optimize_memory : Bool
  optimize_graph_output_memory : Bool
deriving DecidableEq, Repr

/-- The two `TORCH_CHECK`s at the top of `StaticModule::StaticModule`
(impl.cpp lines 547-556), in source order; `true` means construction passes
them. -/
def staticModuleOptionCheck (o : SMOptions) : Bool :=
  if o.optimize_graph_output_memory &&
      !(o.enable_out_variant && o.optimize_memory) then false
  else if o.optimize_memory && !o.enable_out_variant then false
  else true

/-! ### MemoryPlanner (impl.cpp lines 1175-1358)

A managed tensor is reduced to its storage's `nbytes` (a natural number; the
data pointer is tracked through the buffer/event model).  `managed_tensors_`
is the list of `(learned size, tensors-in-cluster)` pairs. -/

/-- `c10::gAlignment`.  Modelled from the spec: the constant lives in
c10/core/alignment.h (outside this repository slice); the spec calls it "the
platform alignment constant" (a power of two), 64 bytes for the CPU arena. -/
def gAlignment : Nat := 64

/-- `size_t` is 64 bits wide. -/
def size_t_mod : Nat := 2 ^ 64

/-- `MemoryPlanner::compute_aligned_tensor_size` (impl.cpp lines 1287-1290):
`(nbytes + c10::gAlignment - 1) & (~(c10::gAlignment - 1))` in `size_t`
arithmetic.  `~(A-1)` over 64 bits is `2^64 - A`. -/
def compute_aligned_tensor_size (nbytes : Nat) : Nat :=
  ((nbytes + gAlignment - 1) % size_t_mod) &&& (size_t_mod - gAlignment)

/-! ### Arithmetic facts about `compute_aligned_tensor_size` -/

theorem land_align_mask (x : Nat) (h : x < 2 ^ 64) :
    x &&& (2 ^ 64 - 64) = 64 * (x / 64) := by
  have hm : (2 : Nat) ^ 64 - 64 = (2 ^ 58 - 1) <<< 6 := by decide
  have hr : 64 * (x / 64) = (x >>> 6) <<< 6 := by
    rw [Nat.shiftLeft_eq, Nat.shiftRight_eq_div_pow]
    norm_num [Nat.mul_comm]
  rw [hm, hr]
  apply Nat.eq_of_testBit_eq
  intro i
  rw [Nat.testBit_and, Nat.testBit_shiftLeft, Nat.testBit_shiftLeft,
    Nat.testBit_two_pow_sub_one, Nat.testBit_shiftRight]
  rcases Nat.lt_or_ge i 6 with hi | hi
  · simp [Nat.not_le_of_lt hi]
  · have h6 : 6 + (i - 6) = i := by omega
    rcases Nat.lt_or_ge i 64 with hi64 | hi64
    · have : i - 6 < 58 := by omega
      simp [hi, h6, this, Bool.and_comm]
    · have hbit : x.testBit i = false :=
        Nat.testBit_lt_two_pow (Nat.lt_of_lt_of_le h (Nat.pow_le_pow_right (by omega) hi64))
      simp [hbit, h6]

theorem compute_aligned_eq (n : Nat) (h : n + 63 < 2 ^ 64) :
    compute_aligned_tensor_size n = 64 * ((n + 63) / 64) := by
  unfold compute_aligned_tensor_size gAlignment size_t_mod
  have h1 : n + 64 - 1 = n + 63 := by omega
  rw [h1, Nat.mod_eq_of_lt h, land_align_mask _ h]

/-- The aligned size is a multiple of the alignment, at least `n`, and below
any other multiple of the alignment that is at least `n`. -/
theorem compute_aligned_least (n : Nat) (h : n + 63 < 2 ^ 64) :
    gAlignment ∣ compute_aligned_tensor_size n ∧
      n ≤ compute_aligned_tensor_size n ∧
      ∀ m, gAlignment ∣ m → n ≤ m → compute_aligned_tensor_size n ≤ m := by
  rw [compute_aligned_eq n h]
  refine ⟨⟨_, rfl⟩, ?_, ?_⟩
  · have := Nat.div_add_mod (n + 63) 64
    have := Nat.mod_lt (n + 63) (y := 64) (by omega)
    omega
  · intro m hd hnm
    obtain ⟨k, rfl⟩ := hd
    unfold gAlignment at hnm ⊢
    have hmono : (n + 63) / 64 ≤ (64 * k + 63) / 64 :=
      Nat.div_le_div_right (by omega)
    have hk : (64 * k + 63) / 64 = k := by
      rw [Nat.add_comm, Nat.add_mul_div_left _ _ (by omega : (0:Nat) < 64)]
      simp
    omega

/-- On inputs already a multiple of the alignment, alignment is the identity. -/
theorem compute_aligned_multiple (n : Nat) (h : n + 63 < 2 ^ 64)
    (hdvd : n % gAlignment = 0) : compute_aligned_tensor_size n = n := by
  rw [compute_aligned_eq n h]
  unfold gAlignment at hdvd
  omega

theorem compute_aligned_zero : compute_aligned_tensor_size 0 = 0 := by
  have := compute_aligned_multiple 0 (by norm_num) (by decide)
  simpa using this

/-- C7: `compute_aligned_tensor_size n` is `(n + A - 1) & ~(A - 1)` in
`size_t` arithmetic with `A = c10::gAlignment` (a power of two);
when `n + A - 1` does not overflow, the result is the least multiple of `A`
at least `n`, and the function is the identity on multiples of `A`. -/
theorem compute_aligned_tensor_size_spec (n : Nat) :
    compute_aligned_tensor_size n =
      ((n + gAlignment - 1) % size_t_mod) &&& (size_t_mod - gAlignment) ∧
    (n + gAlignment - 1 < size_t_mod →
      (gAlignment ∣ compute_aligned_tensor_size n ∧
        n ≤ compute_aligned_tensor_size n ∧
        ∀ m, gAlignment ∣ m → n ≤ m → compute_aligned_tensor_size n ≤ m) ∧
      (n % gAlignment = 0 → compute_aligned_tensor_size n = n)) := by
  refine ⟨rfl, fun h => ?_⟩
  have h63 : n + 63 < 2 ^ 64 := by
    unfold gAlignment size_t_mod at h
    omega
  exact ⟨compute_aligned_least n h63,
    fun hd => compute_aligned_multiple n h63 hd⟩

/-- Witness for C7 at `n = 129`: the aligned size is `192`, the least
multiple of 64 at least 129; and 128, a multiple, aligns to itself. -/
theorem compute_aligned_tensor_size_spec_witness :
    (64 ∣ compute_aligned_tensor_size 129 ∧
      129 ≤ compute_aligned_tensor_size 129 ∧
      ∀ m, 64 ∣ m → 129 ≤ m → compute_aligned_tensor_size 129 ≤ m) ∧
    compute_aligned_tensor_size 128 = 128 :=
  ⟨((compute_aligned_tensor_size_spec 129).2 (by decide)).1,
    ((compute_aligned_tensor_size_spec 128).2 (by decide)).2 (by decide)⟩

/-! ### MemoryPlanner state, allocate, deallocate -/

/-- Observable events of the planner: acquiring an arena buffer from the CPU
caching allocator (`MemoryPlanner::allocate_buffer`). -/
inductive MPEvent where
  | allocBuffer (size : Nat)
deriving DecidableEq, Repr

/-- The `MemoryPlanner` fields impl.cpp manipulates.  A managed tensor is
reduced to its storage's `nbytes`; `managed_tensors_` pairs each cluster's
learned size with its tensors.  `buffer` is `some size` while an arena is
held.  (`managed_bytes_`, `reused_tensors_` and `buffer_` are declared in
impl.h, outside this slice; the spec records that a fresh planner has
`managed_bytes = 0` and no buffer.) -/
structure PlannerState where
  managed_tensors : List (Nat × List Nat)
  managed_bytes : Nat
  reused_tensors : Nat
  buffer : Option Nat
deriving DecidableEq, Repr

/-- A freshly constructed `MemoryPlanner` over the cluster layout observed
after the first run.  Modelled from the spec: the field initializers live in
impl.h; per the spec the planner "does not yet allocate any arena" and its
cached `managed_bytes` starts at 0 so that the first `allocate` is a no-op. -/
def newPlanner (mt : List (Nat × List Nat)) : PlannerState :=
  { managed_tensors := mt, managed_bytes := 0, reused_tensors := 0,
    buffer := none }

/-- The per-cluster body of `MemoryPlanner::allocate` (impl.cpp 1307-1325):
skip zero-size clusters; otherwise point every tensor at the arena slice
(storage `nbytes` becomes the cluster size) and count reuse as
`|tensors| - 1`. -/
def allocateCluster (acc : Nat × List (Nat × List Nat))
    (ms : Nat × List Nat) : Nat × List (Nat × List Nat) :=
  let (reused, mts) := acc
  let (tensor_size, tensors) := ms
  if tensor_size = 0 then (reused, mts ++ [ms])
  else
    (reused + tensors.length - 1,
      mts ++ [(tensor_size, tensors.map fun _ => tensor_size)])

/-- `MemoryPlanner::allocate` (impl.cpp 1297-1327), with the buffer
acquisition surfaced as an event.  When `managed_bytes_ == 0` the function
returns immediately and no buffer is acquired. -/
def allocate (st : PlannerState) : PlannerState × List MPEvent :=
  if st.managed_bytes = 0 then (st, [])
  else
    let r := st.managed_tensors.foldl allocateCluster (0, [])
    ({ st with
        managed_tensors := r.2
        reused_tensors := r.1
        buffer := some st.managed_bytes },
      [MPEvent.allocBuffer st.managed_bytes])

/-- The per-cluster body of `MemoryPlanner::deallocate` (impl.cpp 1334-1350):
take the max of the recorded size and every tensor's aligned current size,
reset each tensor's storage (`StorageImpl::reset` frees the data and zeroes
`nbytes`), record the max as the new learned size and add it to
`managed_bytes`. -/
def deallocateCluster (acc : Nat × List (Nat × List Nat))
    (ms : Nat × List Nat) : Nat × List (Nat × List Nat) :=
  let (bytes, mts) := acc
  let (sz, tensors) := ms
  let mx := tensors.foldl
    (fun m t => Nat.max m (compute_aligned_tensor_size t)) sz
  (bytes + mx, mts ++ [(mx, tensors.map fun _ => 0)])

/-- `MemoryPlanner::deallocate` (impl.cpp 1329-1358): recompute
`managed_bytes` as the sum of per-cluster learned sizes and release the arena
buffer. -/
def deallocate (st : PlannerState) : PlannerState :=
  let r := st.managed_tensors.foldl deallocateCluster (0, [])
  { st with managed_tensors := r.2, managed_bytes := r.1, buffer := none }

/-! ### Fold characterizations of allocate / deallocate -/

/-- Per-cluster effect of `allocate` on the managed-tensor list. -/
def allocClusterMap (ms : Nat × List Nat) : Nat × List Nat :=
  if ms.1 = 0 then ms else (ms.1, ms.2.map fun _ => ms.1)

/-- The learned size `deallocate` records for one cluster. -/
def clusterMax (ms : Nat × List Nat) : Nat :=
  ms.2.foldl (fun m t => Nat.max m (compute_aligned_tensor_size t)) ms.1

theorem allocate_fold_snd (l : List (Nat × List Nat)) (r : Nat)
    (m : List (Nat × List Nat)) :
    (l.foldl allocateCluster (r, m)).2 = m ++ l.map allocClusterMap := by
  induction l generalizing r m with
  | nil => simp
  | cons ms rest ih =>
    obtain ⟨sz, ts⟩ := ms
    by_cases h : sz = 0 <;>
      simp [allocateCluster, allocClusterMap, h, ih]

theorem allocate_fold_fst (l : List (Nat × List Nat)) (r : Nat)
    (m : List (Nat × List Nat))
    (hne : ∀ ms ∈ l, ms.1 ≠ 0 → ms.2 ≠ []) :
    (l.foldl allocateCluster (r, m)).1 =
      r + ((l.filter fun ms => ms.1 != 0).map fun ms => ms.2.length - 1).sum := by
  induction l generalizing r m with
  | nil => simp
  | cons ms rest ih =>
    obtain ⟨sz, ts⟩ := ms
    by_cases h : sz = 0
    · simpa [allocateCluster, h] using
        ih r (m ++ [(sz, ts)]) (fun x hx => hne x (List.mem_cons_of_mem _ hx))
    · have hts : ts ≠ [] := hne (sz, ts) (List.mem_cons_self _ _) h
      have hlen : 1 ≤ ts.length := by
        cases ts with
        | nil => exact absurd rfl hts
        | cons a b => simp
      have hrec := ih (r + ts.length - 1) (m ++ [(sz, ts.map fun _ => sz)])
        (fun x hx => hne x (List.mem_cons_of_mem _ hx))
      have hstep : allocateCluster (r, m) (sz, ts) =
          (r + ts.length - 1, m ++ [(sz, ts.map fun _ => sz)]) := by
        simp [allocateCluster, h]
      rw [List.foldl_cons, hstep, hrec]
      simp only [List.filter_cons]
      have hb : (sz != 0) = true := by simpa using h
      simp [hb]
      omega

theorem deallocate_fold_fst (l : List (Nat × List Nat)) (b : Nat)
    (m : List (Nat × List Nat)) :
    (l.foldl deallocateCluster (b, m)).1 = b + (l.map clusterMax).sum := by
  induction l generalizing b m with
  | nil => simp
  | cons ms rest ih =>
    obtain ⟨sz, ts⟩ := ms
    simp only [deallocateCluster, List.foldl_cons, List.map_cons, List.sum_cons]
    rw [ih]
    simp [clusterMax]
    omega

theorem foldl_max_of_le {f : Nat → Nat} (ts : List Nat) (m : Nat)
    (h : ∀ t ∈ ts, f t ≤ m) :
    ts.foldl (fun a t => Nat.max a (f t)) m = m := by
  induction ts with
  | nil => rfl
  | cons t rest ih =>
    simp only [List.foldl_cons]
    have hmt : Nat.max m (f t) = m :=
      Nat.max_eq_left (h t (List.mem_cons_self _ _))
    rw [hmt]
    exact ih fun x hx => h x (List.mem_cons_of_mem _ hx)

/-- For a cluster whose learned size is aligned and whose tensors' storages
either are reset (0 bytes) or hold exactly the learned size, the learned size
`deallocate` records is unchanged. -/
theorem clusterMax_eq_of_aligned (sz : Nat) (ts : List Nat)
    (hsz : compute_aligned_tensor_size sz = sz)
    (hts : ∀ t ∈ ts, t = 0 ∨ t = sz) : clusterMax (sz, ts) = sz := by
  unfold clusterMax
  apply foldl_max_of_le
  intro t ht
  rcases hts t ht with h | h <;> subst h
  · simp [compute_aligned_zero]
  · exact Nat.le_of_eq hsz

theorem deallocate_managed_bytes (st : PlannerState) :
    (deallocate st).managed_bytes = (st.managed_tensors.map clusterMax).sum := by
  unfold deallocate
  simp [deallocate_fold_fst]

/-- A planner state as left by the end of a `deallocate`: every cluster's
learned size is its own aligned value (it is a max of aligned sizes), every
tensor's storage was reset to 0 bytes, and `managed_bytes` is the sum of the
learned sizes. -/
def PostDeallocState (st : PlannerState) : Prop :=
  (∀ ms ∈ st.managed_tensors,
    compute_aligned_tensor_size ms.1 = ms.1 ∧ ∀ t ∈ ms.2, t = 0) ∧
  st.managed_bytes = (st.managed_tensors.map Prod.fst).sum

/-- C3: from any end-of-deallocate planner state, `allocate` followed by
`deallocate` with no intervening node run leaves `managed_bytes` unchanged. -/
theorem allocate_then_deallocate_preserves_managed_bytes (st : PlannerState)
    (h : PostDeallocState st) :
    (deallocate (allocate st).1).managed_bytes = st.managed_bytes := by
  obtain ⟨hA, hB⟩ := h
  rw [deallocate_managed_bytes]
  by_cases h0 : st.managed_bytes = 0
  · have halloc : (allocate st).1 = st := by simp [allocate, h0]
    rw [halloc]
    have : st.managed_tensors.map clusterMax = st.managed_tensors.map Prod.fst := by
      apply List.map_congr_left
      intro ms hms
      obtain ⟨sz, ts⟩ := ms
      exact clusterMax_eq_of_aligned sz ts (hA _ hms).1
        (fun t ht => Or.inl ((hA _ hms).2 t ht))
    rw [this, ← hB]
  · have halloc : (allocate st).1.managed_tensors =
        st.managed_tensors.map allocClusterMap := by
      simp [allocate, h0, allocate_fold_snd]
    rw [halloc]
    have : (st.managed_tensors.map allocClusterMap).map clusterMax =
        st.managed_tensors.map Prod.fst := by
      rw [List.map_map]
      apply List.map_congr_left
      intro ms hms
      obtain ⟨sz, ts⟩ := ms
      simp only [Function.comp]
      by_cases hsz : sz = 0
      · simp only [allocClusterMap, hsz, if_pos rfl]
        exact clusterMax_eq_of_aligned 0 ts (by simpa [hsz] using (hA _ hms).1)
          (fun t ht => Or.inl ((hA _ hms).2 t ht))
      · simp only [allocClusterMap, if_neg hsz]
        exact clusterMax_eq_of_aligned sz _ (hA _ hms).1
          (fun t ht => by
            rcases List.mem_map.mp ht with ⟨x, _, rfl⟩
            exact Or.inr rfl)
    rw [this, ← hB]

/-- Witness for C3 at a concrete post-deallocate state. -/
theorem allocate_then_deallocate_preserves_managed_bytes_witness :
    PostDeallocState
      { managed_tensors := [(64, [0, 0]), (0, [0])], managed_bytes := 64,
        reused_tensors := 0, buffer := none } ∧
    (deallocate (allocate
      { managed_tensors := [(64, [0, 0]), (0, [0])], managed_bytes := 64,
        reused_tensors := 0, buffer := none }).1).managed_bytes = 64 := by
  have hpost : PostDeallocState
      { managed_tensors := [(64, [0, 0]), (0, [0])], managed_bytes := 64,
        reused_tensors := 0, buffer := none } := by
    constructor
    · intro ms hms
      have h64 : compute_aligned_tensor_size 64 = 64 :=
        compute_aligned_multiple 64 (by norm_num) (by decide)
      have h0 : compute_aligned_tensor_size 0 = 0 := compute_aligned_zero
      simp only [List.mem_cons, List.not_mem_nil, or_false] at hms
      rcases hms with rfl | rfl
      · exact ⟨h64, by intro t ht; simp_all⟩
      · exact ⟨h0, by intro t ht; simp_all⟩
    · rfl
  exact ⟨hpost,
    allocate_then_deallocate_preserves_managed_bytes _ hpost⟩

/-! ### reused_tensors accounting (C6) -/

theorem sum_map_sub_one (l : List Nat) (h : ∀ x ∈ l, 1 ≤ x) :
    (l.map (· - 1)).sum = l.sum - l.length ∧ l.length ≤ l.sum := by
  induction l with
  | nil => simp
  | cons x rest ih =>
    have hx := h x (List.mem_cons_self _ _)
    have := ih fun y hy => h y (List.mem_cons_of_mem _ hy)
    simp only [List.map_cons, List.sum_cons, List.length_cons]
    omega

/-- C6 counterexample: a reachable planner state (one learned-size-64 cluster
with one tensor, one learned-size-0 cluster with one tensor) where, after
`allocate` with `managed_bytes > 0`, `reused_tensors` is 0 but the spec's
formula `Σ|cluster| - #clusters_with_nonzero_size` gives 1: tensors of
zero-size clusters are skipped by `allocate`, not counted. -/
theorem allocate_reused_tensors_counterexample :
    0 < (PlannerState.mk [(64, [64]), (0, [0])] 64 0 none).managed_bytes ∧
    (allocate (PlannerState.mk [(64, [64]), (0, [0])] 64 0 none)).1.reused_tensors ≠
      ((PlannerState.mk [(64, [64]), (0, [0])] 64 0 none).managed_tensors.map
          fun ms => ms.2.length).sum -
        ((PlannerState.mk [(64, [64]), (0, [0])] 64 0 none).managed_tensors.filter
          fun ms => ms.1 != 0).length := by
  decide

/-- C6 amended: after `allocate` with `managed_bytes > 0`, for planner states
whose clusters each hold at least one tensor when their learned size is
nonzero, `reused_tensors` equals the number of tensors in clusters with
nonzero learned size minus the number of such clusters. -/
theorem allocate_reused_tensors (st : PlannerState)
    (h0 : st.managed_bytes ≠ 0)
    (hne : ∀ ms ∈ st.managed_tensors, ms.1 ≠ 0 → ms.2 ≠ []) :
    (allocate st).1.reused_tensors =
      ((st.managed_tensors.filter fun ms => ms.1 != 0).map
          fun ms => ms.2.length).sum -
        (st.managed_tensors.filter fun ms => ms.1 != 0).length := by
  have hfold : (allocate st).1.reused_tensors =
      ((st.managed_tensors.filter fun ms => ms.1 != 0).map
        fun ms => ms.2.length - 1).sum := by
    simp [allocate, h0, allocate_fold_fst _ _ _ hne]
  rw [hfold]
  have hmm : ((st.managed_tensors.filter fun ms => ms.1 != 0).map
        fun ms => ms.2.length - 1) =
      ((st.managed_tensors.filter fun ms => ms.1 != 0).map
        fun ms => ms.2.length).map (· - 1) := by
    rw [List.map_map]
    rfl
  rw [hmm]
  have hge : ∀ x ∈ (st.managed_tensors.filter fun ms => ms.1 != 0).map
      fun ms => ms.2.length, 1 ≤ x := by
    intro x hx
    rcases List.mem_map.mp hx with ⟨ms, hms, rfl⟩
    have h1 := List.of_mem_filter hms
    have h2 := List.mem_of_mem_filter hms
    have := hne ms h2 (by simpa using h1)
    cases hms' : ms.2 with
    | nil => exact absurd hms' this
    | cons a b => simp [hms']
  have := (sum_map_sub_one _ hge).1
  rw [this]
  simp

/-- Witness for C6 at a concrete planner state. -/
theorem allocate_reused_tensors_witness :
    (allocate (PlannerState.mk [(64, [64, 64]), (128, [128])] 192 0 none)).1.reused_tensors =
      (((PlannerState.mk [(64, [64, 64]), (128, [128])] 192 0 none).managed_tensors.filter
          fun ms => ms.1 != 0).map fun ms => ms.2.length).sum -
        ((PlannerState.mk [(64, [64, 64]), (128, [128])] 192 0 none).managed_tensors.filter
          fun ms => ms.1 != 0).length :=
  allocate_reused_tensors _ (by decide) (by decide)

/-! ### C8: StaticModule option precondition checks -/

/-- C8: `StaticModule` construction passes its two option `TORCH_CHECK`s
iff `optimize_graph_output_memory → enable_out_variant ∧ optimize_memory`
and `optimize_memory → enable_out_variant`; it errors on every other
combination. -/
theorem staticModuleOptionCheck_iff (o : SMOptions) :
    staticModuleOptionCheck o = true ↔
      ((o.optimize_graph_output_memory = true →
          o.enable_out_variant = true ∧ o.optimize_memory = true) ∧
        (o.optimize_memory = true → o.enable_out_variant = true)) := by
  obtain ⟨a, b, c, d⟩ := o
  cases a <;> cases b <;> cases c <;> cases d <;> decide

/-! ### C9: ProcessedNode overlap check -/

/-- `at::MemOverlapStatus` (ATen/MemoryOverlap.h, outside this slice). -/
inductive MemOverlapStatus where
  | FULL | PARTIAL | NO | TOO_HARD
deriving DecidableEq, Repr

/-- A boxed `IValue` slot, reduced to what the runtime checks inspect: the
`None` state, a tensor (with a storage identity, its `defined()` flag and
whether its storage data pointer is null), or any other payload. -/
inductive IVal where
  | noneV
  | tensor (storageId : Nat) (defined : Bool) (dataNull : Bool)
  | other
deriving DecidableEq, Repr

/-- `c10::FunctionSchema`, reduced to its mutability flag. -/
structure Schema where
  is_mutable : Bool
deriving DecidableEq, Repr

/-- A `ProcessedNode` as seen by
`verify_outputs_not_overlapping_with_immutable_inputs`: the node's optional
schema, the input slots (`inputs_`, via pointers) and the owned output slots
(`outputs_`). -/
structure PNode where
  schema : Option Schema
  inputs : List IVal
  outputs : List IVal
deriving DecidableEq, Repr

/-- `ProcessedNode::verify_outputs_not_overlapping_with_immutable_inputs`
(impl.cpp 1411-1434).  `ov` is the external memory-overlap probe
`at::get_overlap_status` on storage identities (modelled from the spec:
"memory-overlap probe on storage regions"; ATen is outside this slice). -/
def verify_outputs_not_overlapping_with_immutable_inputs
    (ov : Nat → Nat → MemOverlapStatus) (pn : PNode) : Bool :=
  match pn.schema with
  | none => true
  | some s =>
    if s.is_mutable then true
    else
      !(pn.inputs.any fun i =>
        match i with
        | IVal.tensor ti _ _ =>
          pn.outputs.any fun o =>
            match o with
            | IVal.tensor uo _ _ => decide (ov ti uo ≠ MemOverlapStatus.NO)
            | _ => false
        | _ => false)

/-- C9: the debug overlap check returns `true` when the node has no schema or
a mutable schema; for an immutable schema it returns `false` iff some
tensor-typed input's storage overlaps (per the probe) with some tensor-typed
output's storage. -/
theorem verify_outputs_spec (ov : Nat → Nat → MemOverlapStatus) (pn : PNode) :
    ((pn.schema = none ∨ ∃ s, pn.schema = some s ∧ s.is_mutable = true) →
      verify_outputs_not_overlapping_with_immutable_inputs ov pn = true) ∧
    (∀ s, pn.schema = some s → s.is_mutable = false →
      (verify_outputs_not_overlapping_with_immutable_inputs ov pn = false ↔
        ∃ ti di ni, IVal.tensor ti di ni ∈ pn.inputs ∧
          ∃ uo d2 n2, IVal.tensor uo d2 n2 ∈ pn.outputs ∧
            ov ti uo ≠ MemOverlapStatus.NO)) := by
  constructor
  · rintro (h | ⟨s, hs, hm⟩)
    · simp [verify_outputs_not_overlapping_with_immutable_inputs, h]
    · simp [verify_outputs_not_overlapping_with_immutable_inputs, hs, hm]
  · intro s hs hm
    have hval : verify_outputs_not_overlapping_with_immutable_inputs ov pn =
        !(pn.inputs.any fun i =>
          match i with
          | IVal.tensor ti _ _ =>
            pn.outputs.any fun o =>
              match o with
              | IVal.tensor uo _ _ => decide (ov ti uo ≠ MemOverlapStatus.NO)
              | _ => false
          | _ => false) := by
      simp [verify_outputs_not_overlapping_with_immutable_inputs, hs, hm]
    have hnot : ∀ b : Bool, ((!b) = false ↔ b = true) := by decide
    rw [hval, hnot, List.any_eq_true]
    constructor
    · rintro ⟨i, hi, hmatch⟩
      match i, hmatch with
      | IVal.noneV, hmatch => exact absurd hmatch (by simp)
      | IVal.other, hmatch => exact absurd hmatch (by simp)
      | IVal.tensor ti di ni, hmatch =>
        rw [List.any_eq_true] at hmatch
        obtain ⟨o, ho, hmatch2⟩ := hmatch
        match o, hmatch2 with
        | IVal.noneV, hmatch2 => exact absurd hmatch2 (by simp)
        | IVal.other, hmatch2 => exact absurd hmatch2 (by simp)
        | IVal.tensor uo d2 n2, hmatch2 =>
          exact ⟨ti, di, ni, hi, uo, d2, n2, ho, by simpa using hmatch2⟩
    · rintro ⟨ti, di, ni, hi, uo, d2, n2, ho, hov⟩
      refine ⟨IVal.tensor ti di ni, hi, ?_⟩
      rw [List.any_eq_true]
      exact ⟨IVal.tensor uo d2 n2, ho, by simpa using hov⟩

/-- Witness for C9: a concrete immutable-schema node with a partially
overlapping input/output pair fails the check. -/
theorem verify_outputs_spec_witness :
    verify_outputs_not_overlapping_with_immutable_inputs
      (fun _ _ => MemOverlapStatus.PARTIAL)
      (PNode.mk (some (Schema.mk false))
        [IVal.tensor 0 true false] [IVal.tensor 1 true false]) = false :=
  ((verify_outputs_spec (fun _ _ => MemOverlapStatus.PARTIAL)
      (PNode.mk (some (Schema.mk false))
        [IVal.tensor 0 true false] [IVal.tensor 1 true false])).2
    (Schema.mk false) rfl rfl).mpr
    ⟨0, true, false, by simp, 1, true, false, by simp, by decide⟩

/-! ### StaticRuntime invocation skeleton (impl.cpp 785-842, 1130-1173)

`StaticRuntime::operator()(args, kwargs)` is modelled as a state transition
on the planner slot together with a trace of observable events, in source
order: planner allocation (if a planner exists), one `run` per node, planner
construction + `deallocate` under `cleanup_activations`, and — for modules
with at most one output — the debug-build memory-leak check. -/

/-- Events observable during one `StaticRuntime::operator()` call. -/
inductive RTEvent where
  | allocBuffer (size : Nat)
  | nodeRun
  | leakCheck
deriving DecidableEq, Repr

/-- The slice of `StaticModule` that drives the invocation skeleton. -/
structure SModule where
  opts : SMOptions
  num_outputs : Nat
  num_nodes : Nat
deriving DecidableEq, Repr

/-- The per-runtime mutable state the skeleton tracks: the lazily
constructed planner (`planner_` is null on a fresh runtime; its initializer
lives in impl.h — per the spec the planner "is created on first invocation
completion"). -/
structure RTState where
  planner : Option PlannerState
deriving DecidableEq, Repr

/-- `StaticRuntime::operator()` (impl.cpp 785-842), debug build.  `observed`
is the cluster layout the `MemoryPlanner` constructor reads off the runtime's
tensors when it is first built. -/
def invoke (sm : SModule) (observed : List (Nat × List Nat)) (rt : RTState) :
    RTState × List RTEvent :=
  let aStep : Option PlannerState × List RTEvent :=
    match rt.planner with
    | some p =>
      let r := allocate p
      (some r.1, r.2.map fun e => match e with
        | MPEvent.allocBuffer s => RTEvent.allocBuffer s)
    | none => (none, [])
  let runEvents := List.replicate sm.num_nodes RTEvent.nodeRun
  let pAfter : Option PlannerState :=
    if sm.opts.cleanup_activations then
      some (deallocate (aStep.1.getD (newPlanner observed)))
    else aStep.1
  let checkEvents := if 1 < sm.num_outputs then [] else [RTEvent.leakCheck]
  (⟨pAfter⟩, aStep.2 ++ runEvents ++ checkEvents)

/-- The conditions evaluated by `TORCH_CHECK` for one output slot inside
`check_for_memory_leak` (impl.cpp 1142-1171).  `optC` is
`isOptimizableContainerType(pnode.node())`, `isOutputSlot` whether the slot's
address is among `outputs_`. -/
def slotLeakChecks (optC isOutputSlot output_returned : Bool) :
    IVal → List Bool
  | IVal.noneV => if isOutputSlot then (if output_returned then [true] else []) else []
  | IVal.tensor _ d dn =>
    if isOutputSlot then (if output_returned then [false] else [])
    else [true] ++ (if d then [dn] else [])
  | IVal.other =>
    if isOutputSlot then (if output_returned then [false] else []) else [optC]

/-- `StaticRuntime::check_for_memory_leak` (impl.cpp 1130-1173), as the list
of `TORCH_CHECK` conditions it evaluates, in order: nothing at all when
`cleanup_activations` is off; otherwise input slots must be `None`, and each
node output slot is checked per `slotLeakChecks`.  `nodeOuts` pairs each
node's `isOptimizableContainerType` flag with its output slots tagged by
whether they are graph-output slots. -/
def check_for_memory_leak (cleanup : Bool) (inputs : List IVal)
    (nodeOuts : List (Bool × List (Bool × IVal)))
    (output_returned : Bool) : List Bool :=
  if !cleanup then []
  else
    (inputs.map fun iv =>
      match iv with
      | IVal.noneV => true
      | _ => false) ++
    nodeOuts.flatMap fun n =>
      n.2.flatMap fun s => slotLeakChecks n.1 s.1 output_returned s.2

/-- C4: on a freshly constructed `StaticRuntime` (no planner yet), `invoke`
never acquires an arena buffer — the planner is only built after the nodes
run, so `allocate` is not called during the first run; and `allocate` on any
planner with `managed_bytes = 0` returns at once without taking a buffer. -/
theorem first_invoke_never_allocates (sm : SModule)
    (observed : List (Nat × List Nat)) (rt : RTState)
    (hfresh : rt.planner = none) :
    (∀ s, RTEvent.allocBuffer s ∉ (invoke sm observed rt).2) ∧
    (∀ p : PlannerState, p.managed_bytes = 0 → allocate p = (p, [])) := by
  constructor
  · intro s
    simp only [invoke, hfresh]
    intro hmem
    simp only [List.nil_append, List.mem_append] at hmem
    rcases hmem with h | h
    · exact RTEvent.noConfusion (List.eq_of_mem_replicate h)
    · by_cases h1 : 1 < sm.num_outputs <;> simp_all
  · intro p hp
    simp [allocate, hp]

/-- Witness for C4 at a concrete module, runtime and planner. -/
theorem first_invoke_never_allocates_witness :
    RTEvent.allocBuffer 0 ∉
      (invoke (SModule.mk (SMOptions.mk true true true false) 1 2) []
        (RTState.mk none)).2 ∧
    allocate (PlannerState.mk [] 0 0 none) = (PlannerState.mk [] 0 0 none, []) :=
  ⟨(first_invoke_never_allocates _ _ _ rfl).1 0,
    (first_invoke_never_allocates (SModule.mk (SMOptions.mk true true true false) 1 2)
      [] (RTState.mk none) rfl).2 _ rfl⟩

/-- C10: the post-run leak check is vacuous in two cases: inside `invoke` it
is only reached for modules with at most one output (with more than one
output the packaged tuple is returned first), and `check_for_memory_leak`
evaluates no condition at all when `cleanup_activations` is off. -/
theorem leak_check_vacuous_cases (sm : SModule) :
    (1 < sm.num_outputs →
      ∀ observed rt, RTEvent.leakCheck ∉ (invoke sm observed rt).2) ∧
    (sm.num_outputs = 1 →
      ∀ observed rt, RTEvent.leakCheck ∈ (invoke sm observed rt).2) ∧
    (∀ inputs nodeOuts output_returned,
      check_for_memory_leak false inputs nodeOuts output_returned = []) := by
  refine ⟨?_, ?_, ?_⟩
  · intro h observed rt
    simp only [invoke]
    intro hmem
    simp only [List.mem_append] at hmem
    rcases hmem with (h1 | h1) | h1
    · match hp : rt.planner with
      | none => simp [hp] at h1
      | some p =>
        simp only [hp] at h1
        rcases List.mem_map.mp h1 with ⟨e, he, hcast⟩
        cases e
        cases hcast
    · exact RTEvent.noConfusion (List.eq_of_mem_replicate h1)
    · simp [if_pos h] at h1
  · intro h observed rt
    simp only [invoke]
    have : ¬ (1 < sm.num_outputs) := by omega
    simp [this]
  · intro inputs nodeOuts output_returned
    simp [check_for_memory_leak]

/-- Witness for C10 at concrete modules and runtimes. -/
theorem leak_check_vacuous_cases_witness :
    RTEvent.leakCheck ∉
      (invoke (SModule.mk (SMOptions.mk true true true false) 2 1) []
        (RTState.mk none)).2 ∧
    check_for_memory_leak false [IVal.tensor 0 true false]
      [(false, [(false, IVal.tensor 1 true false)])] true = [] :=
  ⟨(leak_check_vacuous_cases (SModule.mk (SMOptions.mk true true true false) 2 1)).1
      (by decide) [] (RTState.mk none),
    (leak_check_vacuous_cases (SModule.mk (SMOptions.mk true true true false) 2 1)).2.2
      [IVal.tensor 0 true false] [(false, [(false, IVal.tensor 1 true false)])] true⟩

/-! ### C5: membership in the always-alive set -/

theorem mem_outputsFold_of_mem (db : AliasDb) (outs : List Value)
    (acc : List Value) (x : Value) (hx : x ∈ acc) :
    x ∈ outs.foldl
      (fun acc2 v => if mayContainAliasSet db [v] acc2 then acc2 ++ [v] else acc2)
      acc := by
  induction outs generalizing acc with
  | nil => exact hx
  | cons o rest ih =>
    simp only [List.foldl_cons]
    by_cases h : mayContainAliasSet db [o] acc = true
    · rw [if_pos h]
      exact ih _ (List.mem_append_left _ hx)
    · rw [if_neg h]
      exact ih _ hx

theorem alwaysAliveExpand_append (db : AliasDb) (l1 l2 : List GNode)
    (acc : List Value) :
    alwaysAliveExpand db (l1 ++ l2) acc =
      alwaysAliveExpand db l2 (alwaysAliveExpand db l1 acc) := by
  simp [alwaysAliveExpand, List.foldl_append]

theorem alwaysAliveExpand_cons_nonconst (db : AliasDb) (n : GNode)
    (l : List GNode) (acc : List Value) (h : n.isConstant = false) :
    alwaysAliveExpand db (n :: l) acc =
      alwaysAliveExpand db l
        (n.outputs.foldl
          (fun acc2 w =>
            if mayContainAliasSet db [w] acc2 then acc2 ++ [w] else acc2)
          acc) := by
  simp [alwaysAliveExpand, List.foldl_cons, h]

theorem alwaysAliveExpand_cons_const (db : AliasDb) (n : GNode)
    (l : List GNode) (acc : List Value) (h : n.isConstant = true) :
    alwaysAliveExpand db (n :: l) acc = alwaysAliveExpand db l acc := by
  simp [alwaysAliveExpand, List.foldl_cons, h]

theorem mem_alwaysAliveExpand_of_mem (db : AliasDb) (nodes : List GNode)
    (acc : List Value) (x : Value) (hx : x ∈ acc) :
    x ∈ alwaysAliveExpand db nodes acc := by
  induction nodes generalizing acc with
  | nil => exact hx
  | cons n rest ih =>
    cases hc : n.isConstant with
    | false =>
      rw [alwaysAliveExpand_cons_nonconst db n rest acc hc]
      exact ih _ (mem_outputsFold_of_mem db n.outputs acc x hx)
    | true =>
      rw [alwaysAliveExpand_cons_const db n rest acc hc]
      exact ih _ hx

theorem mayContainAliasSet_mono (db : AliasDb) (v : Value) (s t : List Value)
    (hsub : ∀ x ∈ s, x ∈ t) (h : mayContainAliasSet db [v] s = true) :
    mayContainAliasSet db [v] t = true := by
  simp only [mayContainAliasSet, List.any_eq_true] at *
  obtain ⟨a, ha, b, hb, hab⟩ := h
  exact ⟨a, ha, b, hsub b hb, hab⟩

theorem mem_outputsFold_of_alias (db : AliasDb) (seed : List Value)
    (v : Value) (outs : List Value) (acc : List Value)
    (hv : v ∈ outs) (halias : mayContainAliasSet db [v] seed = true)
    (hseed : ∀ x ∈ seed, x ∈ acc) :
    v ∈ outs.foldl
      (fun acc2 w => if mayContainAliasSet db [w] acc2 then acc2 ++ [w] else acc2)
      acc := by
  induction outs generalizing acc with
  | nil => cases hv
  | cons o rest ih =>
    simp only [List.foldl_cons]
    rcases List.mem_cons.mp hv with rfl | hv2
    · have hcond : mayContainAliasSet db [v] acc = true :=
        mayContainAliasSet_mono db v seed acc hseed halias
      rw [if_pos hcond]
      exact mem_outputsFold_of_mem db rest _ v
        (List.mem_append_right _ (List.mem_singleton.mpr rfl))
    · by_cases h : mayContainAliasSet db [o] acc = true
      · rw [if_pos h]
        exact ih _ hv2 fun x hx => List.mem_append_left _ (hseed x hx)
      · rw [if_neg h]
        exact ih _ hv2 hseed

/-- C5: every graph input, graph output and `prim::Constant` output is in the
always-alive set; additionally, every non-constant node output that may
contain an alias of the seeded set (inputs, outputs, constants) is in it. -/
theorem GetAlwaysAliveValues_mem (g : Graph) (db : AliasDb) (v : Value) :
    ((v ∈ g.inputs ∨ v ∈ g.outputs ∨
        ∃ n ∈ g.nodes, n.isConstant = true ∧ v ∈ n.outputs) →
      v ∈ GetAlwaysAliveValues g db) ∧
    ((∃ n ∈ g.nodes, n.isConstant = false ∧ v ∈ n.outputs) →
      mayContainAliasSet db [v] (alwaysAliveSeed g) = true →
      v ∈ GetAlwaysAliveValues g db) := by
  constructor
  · intro h
    apply mem_alwaysAliveExpand_of_mem
    unfold alwaysAliveSeed
    rcases h with h | h | ⟨n, hn, hc, hv⟩
    · exact List.mem_append_left _ (List.mem_append_left _ h)
    · exact List.mem_append_left _ (List.mem_append_right _ h)
    · refine List.mem_append_right _ ?_
      rw [List.mem_flatMap]
      exact ⟨n, List.mem_filter.mpr ⟨hn, by simpa using hc⟩, hv⟩
  · rintro ⟨n, hn, hc, hv⟩ halias
    obtain ⟨l1, l2, hg⟩ := List.append_of_mem hn
    unfold GetAlwaysAliveValues
    rw [hg, alwaysAliveExpand_append, alwaysAliveExpand_cons_nonconst db n l2 _ hc]
    apply mem_alwaysAliveExpand_of_mem
    exact mem_outputsFold_of_alias db (alwaysAliveSeed g) v n.outputs _ hv halias
      (fun x hx => mem_alwaysAliveExpand_of_mem db l1 _ x hx)

/-- Witness for C5 at a concrete graph: input `0` is always alive; node
output `2`, which may contain an alias of the seed, is always alive too. -/
theorem GetAlwaysAliveValues_mem_witness :
    0 ∈ GetAlwaysAliveValues
        (Graph.mk [0] [1] [GNode.mk false [0] [1], GNode.mk false [0] [2]])
        (AliasDb.mk (fun _ _ => false) (fun a b => a == 2 && b == 0)) ∧
    2 ∈ GetAlwaysAliveValues
        (Graph.mk [0] [1] [GNode.mk false [0] [1], GNode.mk false [0] [2]])
        (AliasDb.mk (fun _ _ => false) (fun a b => a == 2 && b == 0)) :=
  ⟨(GetAlwaysAliveValues_mem _ _ 0).1 (Or.inl (by decide)),
    (GetAlwaysAliveValues_mem
        (Graph.mk [0] [1] [GNode.mk false [0] [1], GNode.mk false [0] [2]])
        (AliasDb.mk (fun _ _ => false) (fun a b => a == 2 && b == 0)) 2).2
      ⟨GNode.mk false [0] [2], by decide, rfl, by decide⟩ (by decide)⟩

/-! ### GetMemoryPlanningCandidates (impl.cpp 299-343)

`canReuseInputsOutputs` is the kernel library's out-variant-eligibility
predicate (static/ops.h, outside this translation unit), taken as a
parameter.  `unordered_set`s are lists with insert-if-absent. -/

/-- `unordered_set::insert` on a duplicate-free list model. -/
def insertS (l : List Value) (v : Value) : List Value :=
  if v ∈ l then l else l ++ [v]

/-- The four containers `GetMemoryPlanningCandidates` builds while scanning
nodes: `seen_values`, `all_values`, `can_reuse`, `cannot_reuse`. -/
structure CandState where
  seen : List Value
  all : List Value
  canR : List Value
  cannotR : List Value
deriving DecidableEq, Repr

/-- Processing one node input (impl.cpp 310-320): record it in `all_values`
if unseen, then mark it reusable or not per the node's flag. -/
def candAddInput (cr : Bool) (st : CandState) (v : Value) : CandState :=
  let st1 := if v ∈ st.seen then st
    else { st with all := st.all ++ [v], seen := insertS st.seen v }
  if cr then { st1 with canR := insertS st1.canR v }
  else { st1 with cannotR := insertS st1.cannotR v }

/-- Processing one node output (impl.cpp 321-329): record it in `all_values`
unconditionally, then mark it reusable or not per the node's flag. -/
def candAddOutput (cr : Bool) (st : CandState) (v : Value) : CandState :=
  let st1 := { st with all := st.all ++ [v], seen := insertS st.seen v }
  if cr then { st1 with canR := insertS st1.canR v }
  else { st1 with cannotR := insertS st1.cannotR v }

/-- Processing one node of the scan (impl.cpp 308-330). -/
def candNodeStep (canReuse : GNode → Bool) (st : CandState) (n : GNode) :
    CandState :=
  let cr := canReuse n
  n.outputs.foldl (candAddOutput cr) (n.inputs.foldl (candAddInput cr) st)

/-- The state of the node scan of `GetMemoryPlanningCandidates`. -/
def candScanState (canReuse : GNode → Bool) (g : Graph) : CandState :=
  g.nodes.foldl (candNodeStep canReuse) ⟨[], [], [], []⟩

/-- `can_reuse` after erasing every `cannot_reuse` value (impl.cpp 331-333). -/
def candReusable (canReuse : GNode → Bool) (g : Graph) : List Value :=
  (candScanState canReuse g).canR.filter
    fun v => decide (v ∉ (candScanState canReuse g).cannotR)

/-- `GetMemoryPlanningCandidates` (impl.cpp 299-343): scan all nodes, remove
every `cannot_reuse` value from `can_reuse`, then emit the candidates in
`all_values` order (erasing from the set as emitted, for determinism).
Returns `(optimizable, all_values)`. -/
def GetMemoryPlanningCandidates (canReuse : GNode → Bool) (g : Graph) :
    List Value × List Value :=
  let st := candScanState canReuse g
  let r := st.all.foldl
    (fun (acc : List Value × List Value) v =>
      if v ∈ acc.1 then (acc.1.filter (· != v), acc.2 ++ [v]) else acc)
    (candReusable canReuse g, [])
  (r.2, st.all)

/-- A node reads or produces `v`. -/
def touches (n : GNode) (v : Value) : Prop := v ∈ n.inputs ∨ v ∈ n.outputs

instance (n : GNode) (v : Value) : Decidable (touches n v) := by
  unfold touches
  infer_instance

/-- `seen_values` and `all_values` agree as sets throughout the scan. -/
def SeenInv (st : CandState) : Prop := ∀ x, x ∈ st.seen ↔ x ∈ st.all

/-- Membership behavior shared by the per-input and per-output steps. -/
def StepSpec (f : CandState → Value → CandState) (cr : Bool) : Prop :=
  ∀ st a, SeenInv st →
    SeenInv (f st a) ∧
    (∀ x, x ∈ (f st a).all ↔ x ∈ st.all ∨ x = a) ∧
    (∀ x, x ∈ (f st a).canR ↔ x ∈ st.canR ∨ (cr = true ∧ x = a)) ∧
    (∀ x, x ∈ (f st a).cannotR ↔ x ∈ st.cannotR ∨ (cr = false ∧ x = a))

theorem mem_insertS (l : List Value) (v x : Value) :
    x ∈ insertS l v ↔ x ∈ l ∨ x = v := by
  unfold insertS
  by_cases h : v ∈ l
  · simp only [if_pos h]
    constructor
    · exact Or.inl
    · rintro (hx | rfl)
      · exact hx
      · exact h
  · simp [if_neg h]

theorem candAddInput_stepSpec (cr : Bool) : StepSpec (candAddInput cr) cr := by
  intro st a hs
  have hs2 : ∀ x, x ∈ st.seen ↔ x ∈ st.all := hs
  by_cases hseen : a ∈ st.seen
  · have hall : a ∈ st.all := (hs2 a).mp hseen
    cases cr <;>
      refine ⟨fun x => ?_, fun x => ?_, fun x => ?_, fun x => ?_⟩ <;>
        (try simp [candAddInput, hseen, mem_insertS, hs2 x]) <;>
        (try tauto) <;> (rintro rfl; exact hall)
  · cases cr <;>
      refine ⟨fun x => ?_, fun x => ?_, fun x => ?_, fun x => ?_⟩ <;>
        (try simp [candAddInput, hseen, mem_insertS, hs2 x]) <;> tauto

theorem candAddOutput_stepSpec (cr : Bool) : StepSpec (candAddOutput cr) cr := by
  intro st a hs
  have hs2 : ∀ x, x ∈ st.seen ↔ x ∈ st.all := hs
  cases cr <;>
    refine ⟨fun x => ?_, fun x => ?_, fun x => ?_, fun x => ?_⟩ <;>
      (try simp [candAddOutput, mem_insertS, hs2 x]) <;> tauto

theorem foldl_stepSpec {f : CandState → Value → CandState} {cr : Bool}
    (hf : StepSpec f cr) (l : List Value) (st : CandState) (hs : SeenInv st) :
    SeenInv (l.foldl f st) ∧
    (∀ x, x ∈ (l.foldl f st).all ↔ x ∈ st.all ∨ x ∈ l) ∧
    (∀ x, x ∈ (l.foldl f st).canR ↔ x ∈ st.canR ∨ (cr = true ∧ x ∈ l)) ∧
    (∀ x, x ∈ (l.foldl f st).cannotR ↔
      x ∈ st.cannotR ∨ (cr = false ∧ x ∈ l)) := by
  induction l generalizing st with
  | nil => refine ⟨hs, fun x => ?_, fun x => ?_, fun x => ?_⟩ <;> simp
  | cons a rest ih =>
    obtain ⟨h1, h2, h3, h4⟩ := hf st a hs
    obtain ⟨g1, g2, g3, g4⟩ := ih (f st a) h1
    refine ⟨g1, fun x => ?_, fun x => ?_, fun x => ?_⟩ <;>
      simp only [List.foldl_cons, List.mem_cons] at * <;>
      [rw [g2 x, h2 x]; rw [g3 x, h3 x]; rw [g4 x, h4 x]] <;> tauto

theorem candNodeStep_spec (canReuse : GNode → Bool) (n : GNode)
    (st : CandState) (hs : SeenInv st) :
    SeenInv (candNodeStep canReuse st n) ∧
    (∀ x, x ∈ (candNodeStep canReuse st n).all ↔ x ∈ st.all ∨ touches n x) ∧
    (∀ x, x ∈ (candNodeStep canReuse st n).canR ↔
      x ∈ st.canR ∨ (canReuse n = true ∧ touches n x)) ∧
    (∀ x, x ∈ (candNodeStep canReuse st n).cannotR ↔
      x ∈ st.cannotR ∨ (canReuse n = false ∧ touches n x)) := by
  unfold candNodeStep touches
  obtain ⟨h1, h2, h3, h4⟩ :=
    foldl_stepSpec (candAddInput_stepSpec (canReuse n)) n.inputs st hs
  obtain ⟨g1, g2, g3, g4⟩ :=
    foldl_stepSpec (candAddOutput_stepSpec (canReuse n)) n.outputs _ h1
  refine ⟨g1, fun x => ?_, fun x => ?_, fun x => ?_⟩ <;>
    [rw [g2 x, h2 x]; rw [g3 x, h3 x]; rw [g4 x, h4 x]] <;> tauto

theorem candScan_spec (canReuse : GNode → Bool) (nodes : List GNode)
    (st : CandState) (hs : SeenInv st) :
    SeenInv (nodes.foldl (candNodeStep canReuse) st) ∧
    (∀ x, x ∈ (nodes.foldl (candNodeStep canReuse) st).all ↔
      x ∈ st.all ∨ ∃ n ∈ nodes, touches n x) ∧
    (∀ x, x ∈ (nodes.foldl (candNodeStep canReuse) st).canR ↔
      x ∈ st.canR ∨ ∃ n ∈ nodes, canReuse n = true ∧ touches n x) ∧
    (∀ x, x ∈ (nodes.foldl (candNodeStep canReuse) st).cannotR ↔
      x ∈ st.cannotR ∨ ∃ n ∈ nodes, canReuse n = false ∧ touches n x) := by
  induction nodes generalizing st with
  | nil => refine ⟨hs, fun x => ?_, fun x => ?_, fun x => ?_⟩ <;> simp
  | cons n rest ih =>
    obtain ⟨h1, h2, h3, h4⟩ := candNodeStep_spec canReuse n st hs
    obtain ⟨g1, g2, g3, g4⟩ := ih (candNodeStep canReuse st n) h1
    refine ⟨g1, fun x => ?_, fun x => ?_, fun x => ?_⟩ <;>
      simp only [List.foldl_cons, List.mem_cons, exists_eq_or_imp] at * <;>
      [rw [g2 x, h2 x]; rw [g3 x, h3 x]; rw [g4 x, h4 x]] <;> tauto

theorem candEmit_spec (v : Value) (all : List Value) :
    ∀ (c opt : List Value),
      (v ∈ (all.foldl
        (fun (acc : List Value × List Value) w =>
          if w ∈ acc.1 then (acc.1.filter (· != w), acc.2 ++ [w]) else acc)
        (c, opt)).2 ↔ v ∈ opt ∨ (v ∈ c ∧ v ∈ all)) := by
  induction all with
  | nil => simp
  | cons a rest ih =>
    intro c opt
    simp only [List.foldl_cons]
    by_cases ha : a ∈ c
    · rw [if_pos ha]
      rw [ih]
      simp only [List.mem_append, List.mem_singleton, List.mem_filter,
        List.mem_cons, bne_iff_ne]
      by_cases hva : v = a
      · subst hva
        tauto
      · tauto
    · rw [if_neg ha]
      rw [ih]
      simp only [List.mem_cons]
      by_cases hva : v = a
      · subst hva
        tauto
      · tauto

theorem GetMemoryPlanningCandidates_fst (canReuse : GNode → Bool) (g : Graph) :
    (GetMemoryPlanningCandidates canReuse g).1 =
      ((candScanState canReuse g).all.foldl
        (fun (acc : List Value × List Value) v =>
          if v ∈ acc.1 then (acc.1.filter (· != v), acc.2 ++ [v]) else acc)
        (candReusable canReuse g, [])).2 := rfl

/-- C2 counterexample: in the one-node graph `y = op(x, x)` whose single node
is reuse-eligible, the graph input `x` (value 0) is a reuse candidate even
though it is always-alive (it is a graph input): `GetMemoryPlanningCandidates`
never consults the always-alive set. -/
theorem reuse_candidates_always_alive_counterexample :
    0 ∈ (GetMemoryPlanningCandidates (fun _ => true)
        (Graph.mk [0] [1] [GNode.mk false [0, 0] [1]])).1 ∧
    0 ∈ GetAlwaysAliveValues (Graph.mk [0] [1] [GNode.mk false [0, 0] [1]])
        (AliasDb.mk (fun _ _ => false) (fun _ _ => false)) := by
  decide

/-- C2 amended: a value is a reuse candidate iff it appears as an input or
output of some node and every node that reads or produces it is
reuse-eligible; always-alive values can appear among the candidates (they are
skipped later, by `GenerateSameStorageValues`). -/
theorem GetMemoryPlanningCandidates_spec (canReuse : GNode → Bool) (g : Graph)
    (v : Value) :
    v ∈ (GetMemoryPlanningCandidates canReuse g).1 ↔
      ((∃ n ∈ g.nodes, touches n v) ∧
        ∀ n ∈ g.nodes, touches n v → canReuse n = true) := by
  obtain ⟨hseen, hall, hcan, hcannot⟩ :=
    candScan_spec canReuse g.nodes ⟨[], [], [], []⟩ (fun _ => Iff.rfl)
  rw [GetMemoryPlanningCandidates_fst, candEmit_spec]
  simp only [List.not_mem_nil, false_or]
  unfold candReusable
  rw [List.mem_filter]
  simp only [decide_eq_true_eq]
  unfold candScanState
  rw [hall v, hcan v, hcannot v]
  simp only [List.not_mem_nil, false_or]
  constructor
  · rintro ⟨⟨⟨n, hn, hcr, ht⟩, hnc⟩, htouch⟩
    refine ⟨htouch, ?_⟩
    intro m hm hmt
    by_contra hne
    exact hnc ⟨m, hm, by simpa using hne, hmt⟩
  · rintro ⟨⟨n, hn, ht⟩, hforall⟩
    refine ⟨⟨⟨n, hn, hforall n hn ht, ht⟩, ?_⟩, ⟨n, hn, ht⟩⟩
    rintro ⟨m, hm, hf, hmt⟩
    rw [hforall m hm hmt] at hf
    cases hf

/-! ### Association-list maps keyed by `Nat`

`std::unordered_map<K, std::set<V>>` is modelled as an association list;
lookup takes the first matching entry.  `.at(k).insert(x)` (`nmInsertAt`)
updates an existing entry and is a no-op on a missing key (where the C++
would throw; all uses below are guarded by key-presence invariants).
`operator[k].insert(x)` (`nmInsertD`) creates the entry when missing. -/

abbrev NMap := List (Nat × List Nat)

def nmLookup (m : NMap) (k : Nat) : Option (List Nat) :=
  (m.find? fun p => p.1 == k).map Prod.snd

def nmGetD (m : NMap) (k : Nat) : List Nat := (nmLookup m k).getD []

def nmHasKey (m : NMap) (k : Nat) : Bool := (nmLookup m k).isSome

def nmAddKey (m : NMap) (k : Nat) : NMap := m ++ [(k, [])]

def nmInsertAt (m : NMap) (k x : Nat) : NMap :=
  m.map fun p =>
    if p.1 = k then (p.1, if x ∈ p.2 then p.2 else p.2 ++ [x]) else p

def nmInsertD (m : NMap) (k x : Nat) : NMap :=
  if nmHasKey m k then nmInsertAt m k x else m ++ [(k, [x])]

def nmEraseAt (m : NMap) (k x : Nat) : NMap :=
  m.map fun p => if p.1 = k then (p.1, p.2.filter (· != x)) else p

def nmRemoveKeys (m : NMap) (ks : List Nat) : NMap :=
  m.filter fun p => decide (p.1 ∉ ks)

/-! ### GetLivenessMap (impl.cpp 164-289)

Nodes are identified by their index in `graph->nodes()`; the `Return` node
(which uses every graph output) is given the pseudo-index `g.nodes.length`.
`add_live_value_fn` recurses through alias activation; the recursion is
fueled — each non-trivial call first inserts its value into `liveness_map`,
so `|creation order| + 1` fuel always suffices, and exhausted fuel returns
the state unchanged (which preserves every invariant proved below). -/

/-- The nodes that may use `v` (`v->uses()`, as a set of node indices;
graph outputs are used by the `Return` node). -/
def usesOf (g : Graph) (v : Value) : List Nat :=
  (g.nodes.enum.filter fun p => decide (v ∈ p.2.inputs)).map Prod.fst ++
    (if v ∈ g.outputs then [g.nodes.length] else [])

/-- `values_in_creation_order`: top-level node outputs in program order. -/
def creationOrder (g : Graph) : List Value := g.nodes.flatMap (·.outputs)

/-- `values_to_idx_in_creation_order[v]`: the index recorded by the building
loop (later occurrences overwrite; missing keys default to 0, as
`operator[]` would). -/
def lastIdxIn (order : List Value) (v : Value) : Nat :=
  order.enum.foldl (fun acc p => if p.2 = v then p.1 else acc) 0

/-- The liveness-scan state: `liveness_map`, `live_values_use_chain`,
`live_nodes_def_chain`. -/
structure LState where
  lmap : NMap
  useChain : NMap
  defChain : NMap
deriving Repr

/-- The pairing loop of `add_live_value_fn` (impl.cpp 198-201): link the new
value `v` with every currently live value, in both directions. -/
def addLivePairs (st : LState) (v : Value) : LState :=
  (st.useChain.map Prod.fst).foldl
    (fun s k => { s with lmap := nmInsertAt (nmInsertAt s.lmap v k) k v }) st

/-- The use-registration of `add_live_value_fn` (impl.cpp 203-214): create a
use chain for `v` when it has uses, and record `v` in the def chain of each
of its users. -/
def addLiveUses (g : Graph) (st : LState) (v : Value) : LState :=
  let uses := usesOf g v
  let st3 : LState :=
    if uses.isEmpty then st
    else { st with useChain := st.useChain ++ [(v, [])] }
  uses.foldl
    (fun s i =>
      { s with useChain := nmInsertAt s.useChain v i,
               defChain := nmInsertD s.defChain i v }) st3

/-- The appended use-chain entry is `nmAddKey` on the use-chain map. -/
theorem addLiveUses_def (g : Graph) (st : LState) (v : Value) :
    addLiveUses g st v =
      (usesOf g v).foldl
        (fun s i =>
          { s with useChain := nmInsertAt s.useChain v i,
                   defChain := nmInsertD s.defChain i v })
        (if (usesOf g v).isEmpty then st
         else { st with useChain := nmAddKey st.useChain v }) := rfl

/-- The alias-user splicing of `add_live_value_fn` (impl.cpp 237-243): track
the users of an activated alias `a` as users of `v` itself.  When `v` has no
use chain the C++ `at(v)` would throw `std::out_of_range`; that unreachable
case is modelled as a no-op. -/
def addLiveAliasUses (g : Graph) (st : LState) (v a : Value) : LState :=
  (usesOf g a).foldl
    (fun s2 i =>
      if nmHasKey s2.useChain v then
        { s2 with useChain := nmInsertAt s2.useChain v i,
                  defChain := nmInsertD s2.defChain i v }
      else s2) st

/-- `add_live_value_fn` (impl.cpp 192-245). -/
def addLive (g : Graph) (db : AliasDb) (order : List Value) :
    Nat → LState → Value → LState
  | 0, st, _ => st
  | fuel + 1, st, v =>
    if nmHasKey st.lmap v then st
    else
      let st4 := addLiveUses g
        (addLivePairs { st with lmap := nmAddKey st.lmap v } v) v
      ((order.drop (lastIdxIn order v)).filter
          fun a => db.mayContainAlias v a).foldl
        (fun s a => addLiveAliasUses g (addLive g db order fuel s a) v a) st4

/-- `traverse_node_fn` plus the main loop's removal of dead values
(impl.cpp 247-271). -/
def traverseNode (st : LState) (i : Nat) : LState :=
  let defs := nmGetD st.defChain i
  let r := defs.foldl
    (fun (acc : NMap × List Nat) v =>
      let uc := nmEraseAt acc.1 v i
      if nmGetD uc v = [] then (uc, acc.2 ++ [v]) else (uc, acc.2))
    (st.useChain, [])
  { st with useChain := nmRemoveKeys r.1 r.2 }

/-- The post-pass of `GetLivenessMap` (impl.cpp 277-286): force every output
live simultaneously with every input of the same node, when both are in the
map. -/
def livenessPostPass (nodes : List GNode) (m : NMap) : NMap :=
  nodes.foldl
    (fun m2 n =>
      n.inputs.foldl
        (fun m3 inp =>
          n.outputs.foldl
            (fun m4 outp =>
              if nmHasKey m4 inp && nmHasKey m4 outp then
                nmInsertAt (nmInsertAt m4 inp outp) outp inp
              else m4) m3) m2) m

/-- `GetLivenessMap(graph, always_alive, db)` (impl.cpp 164-289). -/
def GetLivenessMap (g : Graph) (alwaysAlive : List Value) (db : AliasDb) :
    NMap :=
  let order := creationOrder g
  let fuel := order.length + 1
  let st1 := g.nodes.enum.foldl
    (fun st p =>
      let st2 := p.2.outputs.foldl
        (fun s v => if v ∈ alwaysAlive then s else addLive g db order fuel s v)
        st
      traverseNode st2 p.1)
    ⟨[], [], []⟩
  livenessPostPass g.nodes st1.lmap

/-! ### GenerateSameStorageValues (impl.cpp 370-480)

`same_storage_values` is a key list plus a cluster-valued function (the
`unordered_map`; `share_storage_fn` rewrites every member's cluster to the
merged vector, so a function update is exact). -/

/-- `same_storage_values`: the map's key set (in insertion order) and the
cluster of each value. -/
structure SSMap where
  keys : List Value
  m : Value → List Value

/-- The seen-filtered concatenation `share_storage_fn` builds
(impl.cpp 391-406): old values before new values, duplicates dropped. -/
def dedupConcat (a b : List Value) : List Value :=
  (a ++ b).foldl (fun acc v => if v ∈ acc then acc else acc ++ [v]) []

/-- `share_storage_fn` (impl.cpp 386-410): merge the clusters of `newV` and
`oldV` and point every member at the merged vector. -/
def share_storage_fn (s : SSMap) (newV oldV : Value) : SSMap :=
  if newV = oldV then s
  else
    let values := dedupConcat (s.m oldV) (s.m newV)
    { keys := s.keys, m := fun w => if w ∈ values then values else s.m w }

/-- `same_storage_values[v] = {v}` for a fresh value (impl.cpp 413-416). -/
def ssAddKey (s : SSMap) (v : Value) : SSMap :=
  if v ∈ s.keys then s
  else { keys := s.keys ++ [v], m := fun w => if w = v then [v] else s.m w }

/-- One `all_values` iteration of the alias-initialization phase
(impl.cpp 413-429). -/
def initStep (db : AliasDb) (alwaysAlive : List Value) (s : SSMap)
    (v : Value) : SSMap :=
  let s1 := ssAddKey s v
  if v ∈ alwaysAlive then s1
  else
    s1.keys.foldl
      (fun s2 k => if db.mayAlias k v then share_storage_fn s2 v k else s2)
      s1

/-- The alias-initialization phase (impl.cpp 412-430): walk `all_values`;
ensure each has a cluster; for each non-always-alive `v`, merge `v` with
every existing key `p` with `mayAlias(p, v)`. -/
def initSameStorage (db : AliasDb) (alwaysAlive : List Value)
    (all_values : List Value) : SSMap :=
  all_values.foldl (initStep db alwaysAlive) ⟨[], fun _ => []⟩

/-- One candidate iteration of the greedy phase (impl.cpp 459-477): the
state is the cluster map plus the `seen` list. -/
def greedyStep (db : AliasDb) (alwaysAlive : List Value) (lm : NMap)
    (acc : SSMap × List Value) (v : Value) : SSMap × List Value :=
  if v ∈ alwaysAlive then acc
  else
    let live := ((acc.1.m v).flatMap fun sv => nmGetD lm sv) ++ alwaysAlive
    match acc.2.find?
        (fun t => !((acc.1.m t).any fun w => decide (w ∈ live))) with
    | some t => (share_storage_fn acc.1 v t, acc.2 ++ [v])
    | none => (acc.1, acc.2 ++ [v])

/-- The greedy candidate phase (impl.cpp 432-477): for each non-always-alive
candidate, compute the live set of its cluster, merge it with the first
previously seen candidate whose cluster is disjoint from that set, and
append it to the seen list. -/
def greedySameStorage (db : AliasDb) (alwaysAlive : List Value) (lm : NMap)
    (optimizable : List Value) (s0 : SSMap) : SSMap :=
  (optimizable.foldl (greedyStep db alwaysAlive lm) (s0, [])).1

/-- `GenerateSameStorageValues(alive_during, always_alive, optimizable, db)`
(impl.cpp 370-480). -/
def GenerateSameStorageValues (lm : NMap) (alwaysAlive : List Value)
    (optimizable : List Value × List Value) (db : AliasDb) : SSMap :=
  greedySameStorage db alwaysAlive lm optimizable.1
    (initSameStorage db alwaysAlive optimizable.2)

/-- `u` and `v` have overlapping live ranges per the liveness map. -/
def hasEdge (lm : NMap) (u v : Value) : Prop :=
  v ∈ nmGetD lm u ∨ u ∈ nmGetD lm v

instance (lm : NMap) (u v : Value) : Decidable (hasEdge lm u v) := by
  unfold hasEdge
  infer_instance

/-- One may-alias step inside a cluster `C`. -/
def aliasLink (db : AliasDb) (C : List Value) (a b : Value) : Prop :=
  b ∈ C ∧ (db.mayAlias a b = true ∨ db.mayAlias b a = true)

/-- `u` and `v` are joined by a chain of may-alias links within `C`. -/
def aliasConnIn (db : AliasDb) (C : List Value) (u v : Value) : Prop :=
  Relation.ReflTransGen (aliasLink db C) u v

/-! ### C1 counterexample data

The graph `a = f(x); b = g(x); c = h(x); d = k(a, b, c)` with output `d`,
where the alias DB reports `mayAlias` for the pairs `{a, b}` and `{b, c}`
only (may-alias is not transitive).  The alias-initialization phase chains
`a`, `b`, `c` into one cluster although `a` and `c` overlap in live range
and do not may-alias. -/

def cexGraph : Graph :=
  Graph.mk [10] [5]
    [GNode.mk false [10] [1], GNode.mk false [10] [2],
      GNode.mk false [10] [3], GNode.mk false [1, 2, 3] [5]]

def cexDb : AliasDb :=
  AliasDb.mk
    (fun u v => (u == 1 && v == 2) || (u == 2 && v == 1) ||
      (u == 2 && v == 3) || (u == 3 && v == 2))
    (fun u v => u == v)

def cexAlwaysAlive : List Value := GetAlwaysAliveValues cexGraph cexDb

def cexLm : NMap := GetLivenessMap cexGraph cexAlwaysAlive cexDb

def cexSsm : SSMap :=
  GenerateSameStorageValues cexLm cexAlwaysAlive
    (GetMemoryPlanningCandidates (fun _ => true) cexGraph) cexDb

/-- C1 counterexample: with `optimize_memory`'s exact pipeline on `cexGraph`,
values 1 and 3 end up in the same same-storage cluster, the liveness map has
an edge between them, and the alias DB does not assert that they may alias
(in either direction): the claim's disjunction fails for this pair. -/
theorem same_storage_liveness_counterexample :
    1 ∈ cexSsm.keys ∧ 3 ∈ cexSsm.m 1 ∧ hasEdge cexLm 1 3 ∧
      cexDb.mayAlias 1 3 = false ∧ cexDb.mayAlias 3 1 = false := by
  decide

/-! ### Association-map lemmas -/

theorem nmLookup_nil (j : Nat) : nmLookup [] j = none := rfl

theorem nmLookup_cons (a : Nat) (l : List Nat) (rest : NMap) (j : Nat) :
    nmLookup ((a, l) :: rest) j = if a = j then some l else nmLookup rest j := by
  unfold nmLookup
  by_cases h : a = j <;> simp [List.find?_cons, h]

theorem nmInsertAt_cons (a : Nat) (l : List Nat) (rest : NMap) (k x : Nat) :
    nmInsertAt ((a, l) :: rest) k x =
      (if a = k then (a, if x ∈ l then l else l ++ [x]) else (a, l)) ::
        nmInsertAt rest k x := by
  simp only [nmInsertAt, List.map_cons]

theorem nmLookup_insertAt (m : NMap) (k x j : Nat) :
    nmLookup (nmInsertAt m k x) j =
      (nmLookup m j).map
        (fun l => if j = k then (if x ∈ l then l else l ++ [x]) else l) := by
  induction m with
  | nil => rfl
  | cons p rest ih =>
    obtain ⟨a, l⟩ := p
    rw [nmInsertAt_cons]
    by_cases hak : a = k
    · rw [if_pos hak]
      subst hak
      rw [nmLookup_cons, nmLookup_cons]
      by_cases haj : a = j
      · subst haj
        rw [if_pos rfl, if_pos rfl]
        simp
      · rw [if_neg haj, if_neg haj]
        exact ih
    · rw [if_neg hak]
      rw [nmLookup_cons, nmLookup_cons]
      by_cases haj : a = j
      · subst haj
        rw [if_pos rfl, if_pos rfl]
        have : ¬ (a = k) := hak
        simp [this]
      · rw [if_neg haj, if_neg haj]
        exact ih

theorem nmHasKey_insertAt (m : NMap) (k x j : Nat) :
    nmHasKey (nmInsertAt m k x) j = nmHasKey m j := by
  unfold nmHasKey
  rw [nmLookup_insertAt]
  cases nmLookup m j <;> simp

theorem nmGetD_insertAt_ne (m : NMap) (k x j : Nat) (h : j ≠ k) :
    nmGetD (nmInsertAt m k x) j = nmGetD m j := by
  unfold nmGetD
  rw [nmLookup_insertAt]
  cases nmLookup m j <;> simp [h]

theorem mem_nmGetD_insertAt (m : NMap) (k x j y : Nat) :
    y ∈ nmGetD (nmInsertAt m k x) j ↔
      y ∈ nmGetD m j ∨ (j = k ∧ y = x ∧ nmHasKey m k = true) := by
  by_cases hjk : j = k
  · subst hjk
    cases h : nmLookup m j with
    | none =>
      unfold nmGetD nmHasKey
      rw [nmLookup_insertAt, h]
      simp
    | some l =>
      unfold nmGetD nmHasKey
      rw [nmLookup_insertAt, h]
      by_cases hx : x ∈ l
      · simp only [Option.map_some', Option.getD_some, Option.isSome_some,
          eq_self_iff_true, if_true, if_pos hx, and_true, true_and]
        constructor
        · exact Or.inl
        · rintro (hy | rfl)
          · exact hy
          · exact hx
      · simp [hx, List.mem_append]
  · rw [nmGetD_insertAt_ne _ _ _ _ hjk]
    simp [hjk]

theorem nmLookup_append_single (m : NMap) (k j : Nat) (l : List Nat) :
    nmLookup (m ++ [(k, l)]) j =
      if (nmLookup m j).isSome then nmLookup m j
      else (if k = j then some l else none) := by
  induction m with
  | nil =>
    rw [List.nil_append, nmLookup_cons, nmLookup_nil]
    simp [nmLookup_nil]
  | cons p rest ih =>
    obtain ⟨a, r⟩ := p
    rw [List.cons_append, nmLookup_cons, nmLookup_cons]
    by_cases haj : a = j
    · simp [haj]
    · rw [if_neg haj, if_neg haj]
      exact ih

theorem mem_nmGetD_addKey (m : NMap) (k j y : Nat) :
    y ∈ nmGetD (nmAddKey m k) j ↔ y ∈ nmGetD m j := by
  unfold nmGetD nmAddKey
  rw [nmLookup_append_single]
  cases h : nmLookup m j with
  | none =>
    simp only [h, Option.isSome_none, Bool.false_eq_true, if_false]
    by_cases hk : k = j <;> simp [hk]
  | some l => simp [h]

theorem nmHasKey_addKey (m : NMap) (k j : Nat) :
    nmHasKey (nmAddKey m k) j = (nmHasKey m j || k == j) := by
  unfold nmHasKey nmAddKey
  rw [nmLookup_append_single]
  cases h : nmLookup m j with
  | none =>
    simp only [h, Option.isSome_none, Bool.false_eq_true, if_false,
      Bool.false_or]
    by_cases hk : k = j <;> simp [hk]
  | some l => simp [h]

/-! ### Symmetry of the liveness map -/

/-- Every recorded liveness edge is recorded in both directions. -/
def SymmM (m : NMap) : Prop := ∀ u v, v ∈ nmGetD m u → u ∈ nmGetD m v

theorem nmHasKey_eraseAt (m : NMap) (k x j : Nat) :
    nmHasKey (nmEraseAt m k x) j = nmHasKey m j := by
  induction m with
  | nil => rfl
  | cons p rest ih =>
    obtain ⟨a, l⟩ := p
    unfold nmEraseAt at *
    simp only [List.map_cons]
    by_cases hak : a = k
    · simp only [if_pos hak]
      unfold nmHasKey
      rw [nmLookup_cons, nmLookup_cons]
      by_cases haj : a = j
      · simp [haj]
      · rw [if_neg haj, if_neg haj]
        exact ih
    · simp only [if_neg hak]
      unfold nmHasKey
      rw [nmLookup_cons, nmLookup_cons]
      by_cases haj : a = j
      · simp [haj]
      · rw [if_neg haj, if_neg haj]
        exact ih

theorem nmHasKey_removeKeys (m : NMap) (ks : List Nat) (j : Nat)
    (h : nmHasKey (nmRemoveKeys m ks) j = true) : nmHasKey m j = true := by
  induction m with
  | nil => exact h
  | cons p rest ih =>
    obtain ⟨a, l⟩ := p
    simp only [nmRemoveKeys] at h ih
    rw [List.filter_cons] at h
    unfold nmHasKey
    rw [nmLookup_cons]
    by_cases haj : a = j
    · simp [haj]
    · rw [if_neg haj]
      by_cases hka : a ∈ ks
      · have hd : (decide ((a, l).1 ∉ ks)) = false := by simpa using hka
        rw [hd] at h
        simp only [Bool.false_eq_true, if_false] at h
        exact ih h
      · have hd : (decide ((a, l).1 ∉ ks)) = true := by simpa using hka
        rw [hd] at h
        simp only [if_true] at h
        unfold nmHasKey at h
        rw [nmLookup_cons, if_neg haj] at h
        exact ih h

theorem nmHasKey_of_mem_keys (m : NMap) (k : Nat)
    (h : k ∈ m.map Prod.fst) : nmHasKey m k = true := by
  induction m with
  | nil => cases h
  | cons p rest ih =>
    obtain ⟨a, l⟩ := p
    unfold nmHasKey
    rw [nmLookup_cons]
    rcases List.mem_cons.mp h with rfl | h2
    · simp
    · by_cases hak : a = k
      · simp [hak]
      · rw [if_neg hak]
        exact ih h2

theorem symm_addKey (m : NMap) (k : Nat) (h : SymmM m) :
    SymmM (nmAddKey m k) := by
  intro u v hv
  rw [mem_nmGetD_addKey] at *
  exact h u v hv

theorem symm_addPair (m : NMap) (a b : Nat) (h : SymmM m)
    (ha : nmHasKey m a = true) (hb : nmHasKey m b = true) :
    SymmM (nmInsertAt (nmInsertAt m a b) b a) := by
  intro u v hv
  rw [mem_nmGetD_insertAt, mem_nmGetD_insertAt] at hv
  rw [mem_nmGetD_insertAt, mem_nmGetD_insertAt]
  rw [nmHasKey_insertAt] at *
  rcases hv with (hv | ⟨rfl, rfl, _⟩) | ⟨rfl, rfl, _⟩
  · exact Or.inl (Or.inl (h u v hv))
  · exact Or.inr ⟨rfl, rfl, hb⟩
  · exact Or.inl (Or.inr ⟨rfl, rfl, ha⟩)

/-- The joint invariant of the liveness scan: the map built so far is
symmetric, and every live value has a liveness-map entry. -/
def LInv (st : LState) : Prop :=
  SymmM st.lmap ∧
    ∀ k, nmHasKey st.useChain k = true → nmHasKey st.lmap k = true

theorem foldl_preserve_mem {α β : Type} (P : α → Prop) (f : α → β → α)
    (l : List β) (hf : ∀ a b, b ∈ l → P a → P (f a b)) :
    ∀ (a : α), P a → P (List.foldl f a l) := by
  induction l with
  | nil => intro a ha; exact ha
  | cons b rest ih =>
    intro a ha
    exact ih (fun x c hc hx => hf x c (List.mem_cons_of_mem _ hc) hx) _
      (hf a b (List.mem_cons_self _ _) ha)

theorem addLivePairs_inv (st : LState) (v : Value)
    (hS : SymmM st.lmap)
    (hU : ∀ k, nmHasKey st.useChain k = true → nmHasKey st.lmap k = true)
    (hv : nmHasKey st.lmap v = true) :
    SymmM (addLivePairs st v).lmap ∧
    (∀ j, nmHasKey (addLivePairs st v).lmap j = nmHasKey st.lmap j) ∧
    (addLivePairs st v).useChain = st.useChain ∧
    (addLivePairs st v).defChain = st.defChain := by
  unfold addLivePairs
  refine foldl_preserve_mem
    (fun (s : LState) => SymmM s.lmap ∧
      (∀ j, nmHasKey s.lmap j = nmHasKey st.lmap j) ∧
      s.useChain = st.useChain ∧ s.defChain = st.defChain)
    _ _ ?_ st ⟨hS, fun _ => rfl, rfl, rfl⟩
  intro s k hk ⟨h1, h2, h3, h4⟩
  have hkk : nmHasKey s.lmap k = true := by
    rw [h2]
    exact hU k (nmHasKey_of_mem_keys _ _ hk)
  have hvv : nmHasKey s.lmap v = true := by
    rw [h2]
    exact hv
  refine ⟨symm_addPair _ _ _ h1 hvv hkk, fun j => ?_, h3, h4⟩
  rw [nmHasKey_insertAt, nmHasKey_insertAt]
  exact h2 j

theorem addLiveUses_inv (g : Graph) (st : LState) (v : Value)
    (hU : ∀ k, nmHasKey st.useChain k = true → nmHasKey st.lmap k = true)
    (hv : nmHasKey st.lmap v = true) :
    (addLiveUses g st v).lmap = st.lmap ∧
    (∀ k, nmHasKey (addLiveUses g st v).useChain k = true →
      nmHasKey st.lmap k = true) := by
  rw [addLiveUses_def]
  refine foldl_preserve_mem
    (fun (s : LState) => s.lmap = st.lmap ∧
      (∀ k, nmHasKey s.useChain k = true → nmHasKey st.lmap k = true))
    _ _ ?_ _ ?_
  · intro s i hi ⟨h1, h2⟩
    refine ⟨h1, fun k hk => ?_⟩
    rw [nmHasKey_insertAt] at hk
    exact h2 k hk
  · by_cases he : (usesOf g v).isEmpty
    · rw [if_pos he]
      exact ⟨rfl, hU⟩
    · rw [if_neg he]
      refine ⟨rfl, fun k hk => ?_⟩
      rw [nmHasKey_addKey] at hk
      rcases Bool.or_eq_true_iff.mp hk with hk | hk
      · exact hU k hk
      · have : v = k := by simpa using hk
        subst this
        exact hv

theorem addLiveAliasUses_inv (g : Graph) (st : LState) (v a : Value)
    (h : LInv st) : LInv (addLiveAliasUses g st v a) := by
  unfold addLiveAliasUses
  refine foldl_preserve_mem LInv _ _ ?_ st h
  intro s i hi ⟨h1, h2⟩
  by_cases hkey : nmHasKey s.useChain v = true
  · rw [if_pos hkey]
    refine ⟨h1, fun k hk => ?_⟩
    rw [nmHasKey_insertAt] at hk
    exact h2 k hk
  · rw [if_neg hkey]
    exact ⟨h1, h2⟩

theorem addLive_inv (g : Graph) (db : AliasDb) (order : List Value) :
    ∀ (fuel : Nat) (st : LState) (v : Value),
      LInv st → LInv (addLive g db order fuel st v) := by
  intro fuel
  induction fuel with
  | zero => intro st v h; exact h
  | succ fuel ih =>
    intro st v h
    obtain ⟨hS, hU⟩ := h
    rw [addLive]
    by_cases hk : nmHasKey st.lmap v = true
    · rw [if_pos hk]
      exact ⟨hS, hU⟩
    · rw [if_neg hk]
      have hSA : SymmM (nmAddKey st.lmap v) := symm_addKey _ _ hS
      have hUA : ∀ k, nmHasKey st.useChain k = true →
          nmHasKey (nmAddKey st.lmap v) k = true := by
        intro k hk2
        rw [nmHasKey_addKey]
        exact Bool.or_eq_true_iff.mpr (Or.inl (hU k hk2))
      have hvA : nmHasKey (nmAddKey st.lmap v) v = true := by
        rw [nmHasKey_addKey]
        simp
      obtain ⟨hSB, hKB, hUCB, _⟩ :=
        addLivePairs_inv { st with lmap := nmAddKey st.lmap v } v hSA hUA hvA
      set stB := addLivePairs { st with lmap := nmAddKey st.lmap v } v with hstB
      have hUB : ∀ k, nmHasKey stB.useChain k = true →
          nmHasKey stB.lmap k = true := by
        intro k hk2
        rw [hKB]
        rw [hUCB] at hk2
        exact hUA k hk2
      have hvB : nmHasKey stB.lmap v = true := by
        rw [hKB]
        exact hvA
      obtain ⟨hLC, hUC⟩ := addLiveUses_inv g stB v hUB hvB
      have hC : LInv (addLiveUses g stB v) := by
        refine ⟨by rw [hLC]; exact hSB, fun k hk2 => ?_⟩
        rw [hLC]
        exact hUC k hk2
      refine foldl_preserve_mem LInv _ _ ?_ _ hC
      intro s a ha hs
      exact addLiveAliasUses_inv g _ v a (ih s a hs)

theorem traverseNode_inv (st : LState) (i : Nat) (h : LInv st) :
    LInv (traverseNode st i) := by
  obtain ⟨hS, hU⟩ := h
  unfold traverseNode
  refine ⟨hS, fun k hk => ?_⟩
  have hfold : ∀ (defs : List Nat) (acc : NMap × List Nat),
      (∀ j, nmHasKey acc.1 j = nmHasKey st.useChain j) →
      (∀ j, nmHasKey (defs.foldl
        (fun (acc2 : NMap × List Nat) v =>
          let uc := nmEraseAt acc2.1 v i
          if nmGetD uc v = [] then (uc, acc2.2 ++ [v]) else (uc, acc2.2))
        acc).1 j = nmHasKey st.useChain j) := by
    intro defs
    induction defs with
    | nil => intro acc hacc; exact hacc
    | cons d rest ihd =>
      intro acc hacc
      simp only [List.foldl_cons]
      by_cases hz : nmGetD (nmEraseAt acc.1 d i) d = []
      · rw [if_pos hz]
        exact ihd _ (fun j => by rw [nmHasKey_eraseAt]; exact hacc j)
      · rw [if_neg hz]
        exact ihd _ (fun j => by rw [nmHasKey_eraseAt]; exact hacc j)
  have hk2 := nmHasKey_removeKeys _ _ _ hk
  rw [hfold (nmGetD st.defChain i) (st.useChain, []) (fun _ => rfl)] at hk2
  exact hU k hk2

theorem livenessPostPass_symm (nodes : List GNode) (m : NMap)
    (h : SymmM m) : SymmM (livenessPostPass nodes m) := by
  unfold livenessPostPass
  refine foldl_preserve_mem SymmM _ _ ?_ m h
  intro m2 n hn h2
  refine foldl_preserve_mem SymmM _ _ ?_ m2 h2
  intro m3 inp hinp h3
  refine foldl_preserve_mem SymmM _ _ ?_ m3 h3
  intro m4 outp houtp h4
  by_cases hg : (nmHasKey m4 inp && nmHasKey m4 outp) = true
  · rw [if_pos hg]
    obtain ⟨ha, hb⟩ := Bool.and_eq_true_iff.mp hg
    exact symm_addPair _ _ _ h4 ha hb
  · rw [if_neg hg]
    exact h4

/-- The liveness map returned by `GetLivenessMap` is symmetric: every edge
is recorded in both directions. -/
theorem GetLivenessMap_symm (g : Graph) (alwaysAlive : List Value)
    (db : AliasDb) : SymmM (GetLivenessMap g alwaysAlive db) := by
  unfold GetLivenessMap
  apply livenessPostPass_symm
  have hinit : LInv ⟨[], [], []⟩ := by
    constructor
    · intro u v hv
      simp [nmGetD, nmLookup] at hv
    · intro k hk
      simp [nmHasKey, nmLookup] at hk
  have := foldl_preserve_mem LInv
    (fun st p =>
      traverseNode
        (p.2.outputs.foldl
          (fun s v =>
            if v ∈ alwaysAlive then s
            else addLive g db (creationOrder g) (creationOrder g).length.succ s v)
          st) p.1)
    g.nodes.enum ?_ _ hinit
  · exact this.1
  · intro st p hp hst
    apply traverseNode_inv
    refine foldl_preserve_mem LInv _ _ ?_ st hst
    intro s v hv hs
    by_cases hva : v ∈ alwaysAlive
    · rw [if_pos hva]
      exact hs
    · rw [if_neg hva]
      exact addLive_inv g db _ _ s v hs

/-! ### Cluster invariants of GenerateSameStorageValues -/

theorem mem_dedupFold (x : Value) : ∀ (l acc : List Value),
    x ∈ l.foldl (fun acc v => if v ∈ acc then acc else acc ++ [v]) acc ↔
      x ∈ acc ∨ x ∈ l := by
  intro l
  induction l with
  | nil => simp
  | cons a rest ih =>
    intro acc
    simp only [List.foldl_cons, List.mem_cons]
    by_cases ha : a ∈ acc
    · rw [if_pos ha, ih]
      constructor
      · rintro (h | h)
        · exact Or.inl h
        · exact Or.inr (Or.inr h)
      · rintro (h | rfl | h)
        · exact Or.inl h
        · exact Or.inl ha
        · exact Or.inr h
    · rw [if_neg ha, ih]
      simp only [List.mem_append, List.mem_singleton]
      tauto

theorem mem_dedupConcat (x : Value) (a b : List Value) :
    x ∈ dedupConcat a b ↔ x ∈ a ∨ x ∈ b := by
  unfold dedupConcat
  rw [mem_dedupFold]
  simp

theorem aliasConnIn_mono (db : AliasDb) {C1 C2 : List Value}
    (hsub : ∀ x ∈ C1, x ∈ C2) {u v : Value}
    (h : aliasConnIn db C1 u v) : aliasConnIn db C2 u v :=
  Relation.ReflTransGen.mono (fun _ b hab => ⟨hsub b hab.1, hab.2⟩) h

theorem hasEdge_comm (lm : NMap) (u v : Value) :
    hasEdge lm u v ↔ hasEdge lm v u := Or.comm

/-- Consistency of the cluster map: every key is in its own cluster, cluster
members are keys sharing the same cluster, and non-keys have the empty
cluster. -/
def Consistent (s : SSMap) : Prop :=
  (∀ k ∈ s.keys, k ∈ s.m k ∧ ∀ w ∈ s.m k, w ∈ s.keys ∧ s.m w = s.m k) ∧
  ∀ w, w ∉ s.keys → s.m w = []

/-- After the alias phase every cluster is may-alias connected. -/
def AliasConnInv (db : AliasDb) (s : SSMap) : Prop :=
  ∀ k ∈ s.keys, ∀ u ∈ s.m k, ∀ v ∈ s.m k, aliasConnIn db (s.m k) u v

/-- The final invariant: any two distinct cluster-mates are either joined by
a may-alias chain inside the cluster or have disjoint live ranges. -/
def ClusterInv (db : AliasDb) (lm : NMap) (s : SSMap) : Prop :=
  ∀ k ∈ s.keys, ∀ u ∈ s.m k, ∀ v ∈ s.m k, u ≠ v →
    aliasConnIn db (s.m k) u v ∨ ¬ hasEdge lm u v

theorem share_keys (s : SSMap) (newV oldV : Value) :
    (share_storage_fn s newV oldV).keys = s.keys := by
  unfold share_storage_fn
  by_cases h : newV = oldV <;> simp [h]

theorem share_m (s : SSMap) (newV oldV : Value) (h : newV ≠ oldV) (w : Value) :
    (share_storage_fn s newV oldV).m w =
      if w ∈ dedupConcat (s.m oldV) (s.m newV)
      then dedupConcat (s.m oldV) (s.m newV)
      else s.m w := by
  unfold share_storage_fn
  rw [if_neg h]

theorem share_consistent (s : SSMap) (newV oldV : Value) (hC : Consistent s)
    (hnew : newV ∈ s.keys) (hold : oldV ∈ s.keys) :
    Consistent (share_storage_fn s newV oldV) := by
  by_cases hno : newV = oldV
  · unfold share_storage_fn
    rw [if_pos hno]
    exact hC
  · obtain ⟨hC1, hC2⟩ := hC
    have hCkeys : ∀ x ∈ dedupConcat (s.m oldV) (s.m newV), x ∈ s.keys := by
      intro x hx
      rcases (mem_dedupConcat x _ _).mp hx with h | h
      · exact ((hC1 oldV hold).2 x h).1
      · exact ((hC1 newV hnew).2 x h).1
    have hnotC : ∀ k ∈ s.keys, k ∉ dedupConcat (s.m oldV) (s.m newV) →
        ∀ w ∈ s.m k, w ∉ dedupConcat (s.m oldV) (s.m newV) := by
      intro k hk hkC w hw hwC
      rcases (mem_dedupConcat w _ _).mp hwC with h | h
      · have e1 : s.m w = s.m oldV := ((hC1 oldV hold).2 w h).2
        have e2 : s.m w = s.m k := ((hC1 k hk).2 w hw).2
        have : k ∈ s.m oldV := by
          rw [← e1, e2]
          exact (hC1 k hk).1
        exact hkC ((mem_dedupConcat k _ _).mpr (Or.inl this))
      · have e1 : s.m w = s.m newV := ((hC1 newV hnew).2 w h).2
        have e2 : s.m w = s.m k := ((hC1 k hk).2 w hw).2
        have : k ∈ s.m newV := by
          rw [← e1, e2]
          exact (hC1 k hk).1
        exact hkC ((mem_dedupConcat k _ _).mpr (Or.inr this))
    constructor
    · intro k hk
      rw [share_keys] at hk
      by_cases hkC : k ∈ dedupConcat (s.m oldV) (s.m newV)
      · refine ⟨?_, ?_⟩
        · rw [share_m _ _ _ hno, if_pos hkC]
          exact hkC
        · intro w hw
          rw [share_m _ _ _ hno, if_pos hkC] at hw
          refine ⟨by rw [share_keys]; exact hCkeys w hw, ?_⟩
          rw [share_m _ _ _ hno, if_pos hw, share_m _ _ _ hno, if_pos hkC]
      · refine ⟨?_, ?_⟩
        · rw [share_m _ _ _ hno, if_neg hkC]
          exact (hC1 k hk).1
        · intro w hw
          rw [share_m _ _ _ hno, if_neg hkC] at hw
          have hwk := (hC1 k hk).2 w hw
          have hwC : w ∉ dedupConcat (s.m oldV) (s.m newV) :=
            hnotC k hk hkC w hw
          refine ⟨by rw [share_keys]; exact hwk.1, ?_⟩
          rw [share_m _ _ _ hno, if_neg hwC, share_m _ _ _ hno, if_neg hkC]
          exact hwk.2
    · intro w hw
      rw [share_keys] at hw
      have hwC : w ∉ dedupConcat (s.m oldV) (s.m newV) := fun hmem =>
        hw (hCkeys w hmem)
      rw [share_m _ _ _ hno, if_neg hwC]
      exact hC2 w hw

theorem share_aliasConnInv (db : AliasDb) (s : SSMap) (newV oldV : Value)
    (hC : Consistent s) (hA : AliasConnInv db s)
    (hnew : newV ∈ s.keys) (hold : oldV ∈ s.keys)
    (hal : db.mayAlias oldV newV = true) :
    AliasConnInv db (share_storage_fn s newV oldV) := by
  by_cases hno : newV = oldV
  · unfold share_storage_fn
    rw [if_pos hno]
    exact hA
  · obtain ⟨hC1, _⟩ := hC
    intro k hk u hu v hv
    rw [share_keys] at hk
    by_cases hkC : k ∈ dedupConcat (s.m oldV) (s.m newV)
    · rw [share_m _ _ _ hno, if_pos hkC] at hu hv ⊢
      have hsubOld : ∀ x ∈ s.m oldV, x ∈ dedupConcat (s.m oldV) (s.m newV) :=
        fun x hx => (mem_dedupConcat x _ _).mpr (Or.inl hx)
      have hsubNew : ∀ x ∈ s.m newV, x ∈ dedupConcat (s.m oldV) (s.m newV) :=
        fun x hx => (mem_dedupConcat x _ _).mpr (Or.inr hx)
      have hlink : aliasConnIn db (dedupConcat (s.m oldV) (s.m newV)) oldV newV := by
        refine Relation.ReflTransGen.single ?_
        exact ⟨hsubNew newV (hC1 newV hnew).1, Or.inl hal⟩
      have hlink2 : aliasConnIn db (dedupConcat (s.m oldV) (s.m newV)) newV oldV := by
        refine Relation.ReflTransGen.single ?_
        exact ⟨hsubOld oldV (hC1 oldV hold).1, Or.inr hal⟩
      rcases (mem_dedupConcat u _ _).mp hu with hu2 | hu2 <;>
        rcases (mem_dedupConcat v _ _).mp hv with hv2 | hv2
      · exact aliasConnIn_mono db hsubOld (hA oldV hold u hu2 v hv2)
      · exact Relation.ReflTransGen.trans
          (aliasConnIn_mono db hsubOld (hA oldV hold u hu2 oldV (hC1 oldV hold).1))
          (Relation.ReflTransGen.trans hlink
            (aliasConnIn_mono db hsubNew (hA newV hnew newV (hC1 newV hnew).1 v hv2)))
      · exact Relation.ReflTransGen.trans
          (aliasConnIn_mono db hsubNew (hA newV hnew u hu2 newV (hC1 newV hnew).1))
          (Relation.ReflTransGen.trans hlink2
            (aliasConnIn_mono db hsubOld (hA oldV hold oldV (hC1 oldV hold).1 v hv2)))
      · exact aliasConnIn_mono db hsubNew (hA newV hnew u hu2 v hv2)
    · rw [share_m _ _ _ hno, if_neg hkC] at hu hv ⊢
      exact hA k hk u hu v hv

theorem share_clusterInv (db : AliasDb) (lm : NMap) (s : SSMap)
    (newV oldV : Value) (hC : Consistent s) (hI : ClusterInv db lm s)
    (hnew : newV ∈ s.keys) (hold : oldV ∈ s.keys)
    (hcross : ∀ u ∈ s.m newV, ∀ w ∈ s.m oldV, ¬ hasEdge lm u w) :
    ClusterInv db lm (share_storage_fn s newV oldV) := by
  by_cases hno : newV = oldV
  · unfold share_storage_fn
    rw [if_pos hno]
    exact hI
  · intro k hk u hu v hv hne
    rw [share_keys] at hk
    by_cases hkC : k ∈ dedupConcat (s.m oldV) (s.m newV)
    · rw [share_m _ _ _ hno, if_pos hkC] at hu hv ⊢
      have hsubOld : ∀ x ∈ s.m oldV, x ∈ dedupConcat (s.m oldV) (s.m newV) :=
        fun x hx => (mem_dedupConcat x _ _).mpr (Or.inl hx)
      have hsubNew : ∀ x ∈ s.m newV, x ∈ dedupConcat (s.m oldV) (s.m newV) :=
        fun x hx => (mem_dedupConcat x _ _).mpr (Or.inr hx)
      rcases (mem_dedupConcat u _ _).mp hu with hu2 | hu2 <;>
        rcases (mem_dedupConcat v _ _).mp hv with hv2 | hv2
      · rcases hI oldV hold u hu2 v hv2 hne with h | h
        · exact Or.inl (aliasConnIn_mono db hsubOld h)
        · exact Or.inr h
      · exact Or.inr fun he => hcross v hv2 u hu2 ((hasEdge_comm lm u v).mp he)
      · exact Or.inr (hcross u hu2 v hv2)
      · rcases hI newV hnew u hu2 v hv2 hne with h | h
        · exact Or.inl (aliasConnIn_mono db hsubNew h)
        · exact Or.inr h
    · rw [share_m _ _ _ hno, if_neg hkC] at hu hv ⊢
      exact hI k hk u hu v hv hne

/-! ### ssAddKey and phase invariants -/

theorem ssAddKey_m (s : SSMap) (v : Value) (hv : v ∉ s.keys) (w : Value) :
    (ssAddKey s v).m w = if w = v then [v] else s.m w := by
  unfold ssAddKey
  rw [if_neg hv]

theorem ssAddKey_keys_of_not_mem (s : SSMap) (v : Value) (hv : v ∉ s.keys) :
    (ssAddKey s v).keys = s.keys ++ [v] := by
  unfold ssAddKey
  rw [if_neg hv]

theorem ssAddKey_mem_self (s : SSMap) (v : Value) :
    v ∈ (ssAddKey s v).keys := by
  unfold ssAddKey
  by_cases hv : v ∈ s.keys
  · rw [if_pos hv]
    exact hv
  · rw [if_neg hv]
    exact List.mem_append_right _ (List.mem_singleton.mpr rfl)

theorem ssAddKey_keys_mono (s : SSMap) (v u : Value) (hu : u ∈ s.keys) :
    u ∈ (ssAddKey s v).keys := by
  unfold ssAddKey
  by_cases hv : v ∈ s.keys
  · rw [if_pos hv]
    exact hu
  · rw [if_neg hv]
    exact List.mem_append_left _ hu

theorem ssAddKey_consistent (s : SSMap) (v : Value) (hC : Consistent s) :
    Consistent (ssAddKey s v) := by
  by_cases hv : v ∈ s.keys
  · unfold ssAddKey
    rw [if_pos hv]
    exact hC
  · obtain ⟨hC1, hC2⟩ := hC
    constructor
    · intro k hk
      rw [ssAddKey_keys_of_not_mem _ _ hv] at hk
      rcases List.mem_append.mp hk with hk2 | hk2
      · have hkv : k ≠ v := fun h => hv (h ▸ hk2)
        constructor
        · rw [ssAddKey_m _ _ hv, if_neg hkv]
          exact (hC1 k hk2).1
        · intro w hw
          rw [ssAddKey_m _ _ hv, if_neg hkv] at hw
          have hwk := (hC1 k hk2).2 w hw
          have hwv : w ≠ v := fun h => hv (h ▸ hwk.1)
          refine ⟨?_, ?_⟩
          · rw [ssAddKey_keys_of_not_mem _ _ hv]
            exact List.mem_append_left _ hwk.1
          · rw [ssAddKey_m _ _ hv, if_neg hwv, ssAddKey_m _ _ hv, if_neg hkv]
            exact hwk.2
      · have hkv : k = v := List.mem_singleton.mp hk2
        subst hkv
        constructor
        · rw [ssAddKey_m _ _ hv, if_pos rfl]
          exact List.mem_singleton.mpr rfl
        · intro w hw
          rw [ssAddKey_m _ _ hv, if_pos rfl] at hw
          have hwk : w = k := List.mem_singleton.mp hw
          subst hwk
          refine ⟨?_, rfl⟩
          rw [ssAddKey_keys_of_not_mem _ _ hv]
          exact List.mem_append_right _ (List.mem_singleton.mpr rfl)
    · intro w hw
      rw [ssAddKey_keys_of_not_mem _ _ hv] at hw
      have hw1 : w ∉ s.keys := fun h => hw (List.mem_append_left _ h)
      have hw2 : w ≠ v := fun h =>
        hw (List.mem_append_right _ (List.mem_singleton.mpr h))
      rw [ssAddKey_m _ _ hv, if_neg hw2]
      exact hC2 w hw1

theorem ssAddKey_aliasConnInv (db : AliasDb) (s : SSMap) (v : Value)
    (hA : AliasConnInv db s) : AliasConnInv db (ssAddKey s v) := by
  by_cases hv : v ∈ s.keys
  · unfold ssAddKey
    rw [if_pos hv]
    exact hA
  · intro k hk u hu w hw
    rw [ssAddKey_keys_of_not_mem _ _ hv] at hk
    rcases List.mem_append.mp hk with hk2 | hk2
    · have hkv : k ≠ v := fun h => hv (h ▸ hk2)
      rw [ssAddKey_m _ _ hv, if_neg hkv] at hu hw ⊢
      exact hA k hk2 u hu w hw
    · have hkv : k = v := List.mem_singleton.mp hk2
      subst hkv
      rw [ssAddKey_m _ _ hv, if_pos rfl] at hu hw ⊢
      have hu2 : u = k := List.mem_singleton.mp hu
      have hw2 : w = k := List.mem_singleton.mp hw
      subst hu2
      subst hw2
      exact Relation.ReflTransGen.refl

theorem ssAddKey_clusterInv (db : AliasDb) (lm : NMap) (s : SSMap) (v : Value)
    (hI : ClusterInv db lm s) : ClusterInv db lm (ssAddKey s v) := by
  by_cases hv : v ∈ s.keys
  · unfold ssAddKey
    rw [if_pos hv]
    exact hI
  · intro k hk u hu w hw hne
    rw [ssAddKey_keys_of_not_mem _ _ hv] at hk
    rcases List.mem_append.mp hk with hk2 | hk2
    · have hkv : k ≠ v := fun h => hv (h ▸ hk2)
      rw [ssAddKey_m _ _ hv, if_neg hkv] at hu hw ⊢
      exact hI k hk2 u hu w hw hne
    · have hkv : k = v := List.mem_singleton.mp hk2
      subst hkv
      rw [ssAddKey_m _ _ hv, if_pos rfl] at hu hw
      have hu2 : u = k := List.mem_singleton.mp hu
      have hw2 : w = k := List.mem_singleton.mp hw
      rw [hu2, hw2] at hne
      exact absurd rfl hne

theorem initStep_eq (db : AliasDb) (aa : List Value) (s : SSMap) (v : Value) :
    initStep db aa s v =
      if v ∈ aa then ssAddKey s v
      else
        (ssAddKey s v).keys.foldl
          (fun s2 k => if db.mayAlias k v then share_storage_fn s2 v k else s2)
          (ssAddKey s v) := rfl

theorem initStep_inv (db : AliasDb) (aa : List Value) (s : SSMap) (v : Value)
    (h : Consistent s ∧ AliasConnInv db s) :
    Consistent (initStep db aa s v) ∧ AliasConnInv db (initStep db aa s v) := by
  obtain ⟨hC, hA⟩ := h
  rw [initStep_eq]
  by_cases hva : v ∈ aa
  · rw [if_pos hva]
    exact ⟨ssAddKey_consistent s v hC, ssAddKey_aliasConnInv db s v hA⟩
  · rw [if_neg hva]
    have hbase : Consistent (ssAddKey s v) ∧ AliasConnInv db (ssAddKey s v) ∧
        (ssAddKey s v).keys = (ssAddKey s v).keys ∧ v ∈ (ssAddKey s v).keys :=
      ⟨ssAddKey_consistent s v hC, ssAddKey_aliasConnInv db s v hA, rfl,
        ssAddKey_mem_self s v⟩
    have := foldl_preserve_mem
      (fun (s2 : SSMap) => Consistent s2 ∧ AliasConnInv db s2 ∧
        s2.keys = (ssAddKey s v).keys ∧ v ∈ s2.keys)
      (fun s2 k => if db.mayAlias k v then share_storage_fn s2 v k else s2)
      (ssAddKey s v).keys ?_ _ hbase
    · exact ⟨this.1, this.2.1⟩
    · intro s2 k hk ⟨h1, h2, h3, h4⟩
      dsimp only
      by_cases hal : db.mayAlias k v = true
      · rw [if_pos hal]
        have hkk : k ∈ s2.keys := by
          rw [h3]
          exact hk
        refine ⟨share_consistent s2 v k h1 h4 hkk,
          share_aliasConnInv db s2 v k h1 h2 h4 hkk hal, ?_, ?_⟩
        · rw [share_keys]
          exact h3
        · rw [share_keys]
          exact h4
      · rw [if_neg hal]
        exact ⟨h1, h2, h3, h4⟩

theorem initSameStorage_inv (db : AliasDb) (aa all : List Value) :
    Consistent (initSameStorage db aa all) ∧
      AliasConnInv db (initSameStorage db aa all) := by
  unfold initSameStorage
  refine foldl_preserve_mem
    (fun (s : SSMap) => Consistent s ∧ AliasConnInv db s) _ _ ?_ _ ?_
  · intro s v _ h
    exact initStep_inv db aa s v h
  · constructor
    · constructor
      · intro k hk
        cases hk
      · intro w _
        rfl
    · intro k hk
      cases hk

theorem initStep_keys (db : AliasDb) (aa : List Value) (s : SSMap)
    (v : Value) : (initStep db aa s v).keys = (ssAddKey s v).keys := by
  rw [initStep_eq]
  by_cases hva : v ∈ aa
  · rw [if_pos hva]
  · rw [if_neg hva]
    refine foldl_preserve_mem
      (fun (s2 : SSMap) => s2.keys = (ssAddKey s v).keys) _ _ ?_ _ rfl
    intro s2 k _ h2
    dsimp only
    by_cases hal : db.mayAlias k v = true
    · rw [if_pos hal, share_keys]
      exact h2
    · rw [if_neg hal]
      exact h2

theorem initFold_keys_mono (db : AliasDb) (aa : List Value) :
    ∀ (l : List Value) (s : SSMap) (u : Value), u ∈ s.keys →
      u ∈ (l.foldl (initStep db aa) s).keys := by
  intro l
  induction l with
  | nil => intro s u hu; exact hu
  | cons b rest ih =>
    intro s u hu
    simp only [List.foldl_cons]
    refine ih _ u ?_
    rw [initStep_keys]
    exact ssAddKey_keys_mono _ _ _ hu

theorem initSameStorage_mem_keys (db : AliasDb) (aa : List Value) :
    ∀ (all : List Value) (s : SSMap) (v : Value), v ∈ all →
      v ∈ (all.foldl (initStep db aa) s).keys := by
  intro all
  induction all with
  | nil => intro s v hv; cases hv
  | cons a rest ih =>
    intro s v hv
    simp only [List.foldl_cons]
    rcases List.mem_cons.mp hv with rfl | hv2
    · refine initFold_keys_mono db aa rest _ v ?_
      rw [initStep_keys]
      exact ssAddKey_mem_self s v
    · exact ih _ v hv2

theorem greedyStep_eq (db : AliasDb) (aa : List Value) (lm : NMap)
    (acc : SSMap × List Value) (v : Value) :
    greedyStep db aa lm acc v =
      if v ∈ aa then acc
      else
        match acc.2.find?
            (fun t => !((acc.1.m t).any fun w =>
              decide (w ∈ ((acc.1.m v).flatMap fun sv => nmGetD lm sv) ++ aa))) with
        | some t => (share_storage_fn acc.1 v t, acc.2 ++ [v])
        | none => (acc.1, acc.2 ++ [v]) := rfl

theorem greedySameStorage_inv (db : AliasDb) (aa : List Value) (lm : NMap)
    (opt : List Value) (s0 : SSMap) (hSym : SymmM lm)
    (hC0 : Consistent s0) (hI0 : ClusterInv db lm s0)
    (hopt : ∀ v ∈ opt, v ∈ s0.keys) :
    Consistent (greedySameStorage db aa lm opt s0) ∧
      ClusterInv db lm (greedySameStorage db aa lm opt s0) := by
  unfold greedySameStorage
  have hmain := foldl_preserve_mem
    (fun (acc : SSMap × List Value) =>
      Consistent acc.1 ∧ ClusterInv db lm acc.1 ∧ acc.1.keys = s0.keys ∧
        ∀ t ∈ acc.2, t ∈ acc.1.keys)
    (greedyStep db aa lm) opt ?_ (s0, [])
    ⟨hC0, hI0, rfl, fun t ht => absurd ht (List.not_mem_nil t)⟩
  · exact ⟨hmain.1, hmain.2.1⟩
  · intro acc v hvopt hacc
    obtain ⟨h1, h2, h3, h4⟩ := hacc
    rw [greedyStep_eq]
    by_cases hva : v ∈ aa
    · rw [if_pos hva]
      exact ⟨h1, h2, h3, h4⟩
    · rw [if_neg hva]
      cases hfind : acc.2.find?
          (fun t => !((acc.1.m t).any fun w =>
            decide (w ∈ ((acc.1.m v).flatMap fun sv => nmGetD lm sv) ++ aa))) with
      | none =>
        refine ⟨h1, h2, h3, ?_⟩
        intro t ht
        rcases List.mem_append.mp ht with ht | ht
        · exact h4 t ht
        · have hteq : t = v := List.mem_singleton.mp ht
          subst hteq
          rw [h3]
          exact hopt t hvopt
      | some t =>
        have htseen := List.mem_of_find?_eq_some hfind
        have hpred := List.find?_some hfind
        have hX : ((acc.1.m t).any fun w =>
            decide (w ∈ ((acc.1.m v).flatMap fun sv => nmGetD lm sv) ++ aa)) =
              false := by
          simpa using hpred
        have hnoint : ∀ w ∈ acc.1.m t,
            w ∉ ((acc.1.m v).flatMap fun sv => nmGetD lm sv) ++ aa := by
          intro w hw hmem
          have hany : ((acc.1.m t).any fun w =>
              decide (w ∈ ((acc.1.m v).flatMap fun sv => nmGetD lm sv) ++ aa)) =
                true :=
            List.any_eq_true.mpr ⟨w, hw, by simpa using hmem⟩
          rw [hX] at hany
          cases hany
        have hvkeys : v ∈ acc.1.keys := by
          rw [h3]
          exact hopt v hvopt
        have htkeys : t ∈ acc.1.keys := h4 t htseen
        have hcross : ∀ u ∈ acc.1.m v, ∀ w ∈ acc.1.m t, ¬ hasEdge lm u w := by
          intro u hu w hw he
          have hwa := hnoint w hw
          rcases he with he | he
          · exact hwa
              (List.mem_append_left _ (List.mem_flatMap.mpr ⟨u, hu, he⟩))
          · exact hwa
              (List.mem_append_left _
                (List.mem_flatMap.mpr ⟨u, hu, hSym w u he⟩))
        refine ⟨share_consistent _ v t h1 hvkeys htkeys,
          share_clusterInv db lm _ v t h1 h2 hvkeys htkeys hcross, ?_, ?_⟩
        · rw [share_keys]
          exact h3
        · intro x hx
          rw [share_keys]
          rcases List.mem_append.mp hx with hx | hx
          · exact h4 x hx
          · have hxeq : x = v := List.mem_singleton.mp hx
            subst hxeq
            exact hvkeys

theorem aliasConnInv_clusterInv (db : AliasDb) (lm : NMap) (s : SSMap)
    (hA : AliasConnInv db s) : ClusterInv db lm s :=
  fun k hk u hu v hv _ => Or.inl (hA k hk u hu v hv)

theorem GetMemoryPlanningCandidates_snd (canReuse : GNode → Bool) (g : Graph) :
    (GetMemoryPlanningCandidates canReuse g).2 =
      (candScanState canReuse g).all := rfl

theorem cand_fst_subset_snd (canReuse : GNode → Bool) (g : Graph) (v : Value)
    (hv : v ∈ (GetMemoryPlanningCandidates canReuse g).1) :
    v ∈ (GetMemoryPlanningCandidates canReuse g).2 := by
  rw [GetMemoryPlanningCandidates_fst, candEmit_spec] at hv
  rcases hv with h | ⟨_, hall⟩
  · exact absurd h (List.not_mem_nil v)
  · rw [GetMemoryPlanningCandidates_snd]
    exact hall

/-- The same-storage map that `StaticModule`'s constructor computes when
`optimize_memory` is enabled (impl.cpp 638-643). -/
def sameStorageOf (g : Graph) (db : AliasDb) (canReuse : GNode → Bool) :
    SSMap :=
  GenerateSameStorageValues
    (GetLivenessMap g (GetAlwaysAliveValues g db) db)
    (GetAlwaysAliveValues g db)
    (GetMemoryPlanningCandidates canReuse g) db

/-- C1 amended: for every graph analyzed with `optimize_memory` enabled, and
for every pair of distinct values `(u, v)` in the same same-storage cluster,
either the liveness map returned by `GetLivenessMap` contains no edge
between `u` and `v`, or `u` and `v` are connected within the cluster by a
chain of values whose consecutive elements the alias DB asserts may alias
(the merged-clusters case; a single `mayAlias u v` is the one-link chain). -/
theorem same_storage_cluster_pairs (g : Graph) (db : AliasDb)
    (canReuse : GNode → Bool) (u v : Value)
    (hu : u ∈ (sameStorageOf g db canReuse).keys)
    (hv : v ∈ (sameStorageOf g db canReuse).m u)
    (hne : u ≠ v) :
    ¬ hasEdge (GetLivenessMap g (GetAlwaysAliveValues g db) db) u v ∨
      aliasConnIn db ((sameStorageOf g db canReuse).m u) u v := by
  have hinit := initSameStorage_inv db (GetAlwaysAliveValues g db)
    (GetMemoryPlanningCandidates canReuse g).2
  have hgreedy := greedySameStorage_inv db (GetAlwaysAliveValues g db)
    (GetLivenessMap g (GetAlwaysAliveValues g db) db)
    (GetMemoryPlanningCandidates canReuse g).1
    (initSameStorage db (GetAlwaysAliveValues g db)
      (GetMemoryPlanningCandidates canReuse g).2)
    (GetLivenessMap_symm g (GetAlwaysAliveValues g db) db)
    hinit.1
    (aliasConnInv_clusterInv _ _ _ hinit.2)
    (fun w hw => initSameStorage_mem_keys db (GetAlwaysAliveValues g db)
      (GetMemoryPlanningCandidates canReuse g).2 _ w
      (cand_fst_subset_snd canReuse g w hw))
  have hself : u ∈ (sameStorageOf g db canReuse).m u :=
    (hgreedy.1.1 u hu).1
  rcases hgreedy.2 u hu u hself v hv hne with h | h
  · exact Or.inr h
  · exact Or.inl h

/-- Witness for C1 at the counterexample pipeline: the disjunction holds for
the cluster-mates 1 and 2 of `cexGraph` (they may alias directly). -/
theorem same_storage_cluster_pairs_witness :
    ¬ hasEdge (GetLivenessMap cexGraph (GetAlwaysAliveValues cexGraph cexDb) cexDb)
        1 2 ∨
      aliasConnIn cexDb ((sameStorageOf cexGraph cexDb (fun _ => true)).m 1) 1 2 :=
  same_storage_cluster_pairs cexGraph cexDb (fun _ => true) 1 2
    (by decide) (by decide) (by decide)

end StaticRuntimeSpec
